import Mathlib

/-!
Verification development for the yt-history streaming decoder, scanner,
record extractor and model layers.

Strings from the Rust source are modelled as `List Char` (`Str`); the
byte-oriented input of the UTF-8 decoder is modelled as a list of byte
chunks, one chunk per successful read call of the underlying reader.
-/

set_option maxHeartbeats 1000000

abbrev Str := List Char

/-- Rust `char::is_whitespace`: the Unicode White_Space property. -/
def rust_is_whitespace (c : Char) : Bool :=
  let n := c.toNat
  (0x09 ≤ n && n ≤ 0x0D) || n == 0x20 || n == 0x85 || n == 0xA0 || n == 0x1680 ||
    (0x2000 ≤ n && n ≤ 0x200A) || n == 0x2028 || n == 0x2029 || n == 0x202F ||
    n == 0x205F || n == 0x3000

/-- Embeds `push_collapse_whitespace` (html parser, lines 343-361): appends
`s` to `target`, converting whitespace characters to a single ASCII space and
collapsing consecutive whitespace (also across the boundary with `target`). -/
def push_collapse_whitespace (target : Str) (s : Str) : Str :=
  go target (match target.getLast? with
             | some c => rust_is_whitespace c
             | none => false) s
where
  go (acc : Str) (last_ws : Bool) : Str → Str
    | [] => acc
    | c :: cs =>
      if rust_is_whitespace c then
        if last_ws then go acc true cs else go (acc ++ [' ']) true cs
      else go (acc ++ [c]) false cs

/-- Embeds `Location` (html parser, lines 51-56). -/
structure Location where
  chars : Nat
  columns : Nat
  lines : Nat
deriving DecidableEq, Repr

/-- The default `Location` (all fields zero), as produced by `Location::default()`. -/
def Location.default : Location := ⟨0, 0, 0⟩

/-- The mutable position state of `ModelsParser` (fields `line`, `column`,
`chars_read` of the struct at html parser lines 23-28). -/
structure ScanState where
  line : Nat
  column : Nat
  chars_read : Nat
deriving DecidableEq, Repr

/-- The initial state built by `ModelsParser::new()`. -/
def ScanState.new : ScanState := ⟨0, 0, 0⟩

/-- Embeds `ModelsParser::location` (lines 108-114): `chars` is the raw
character count, `columns` and `lines` are the one-based accessors
`column()` and `line()`. -/
def ScanState.location (st : ScanState) : Location :=
  ⟨st.chars_read, st.column + 1, st.line + 1⟩

/-- The per-consumed-character counter update performed at the top of the
`skip_to` and `read_until` loops (html parser lines 195-202 and 263-270):
`chars_read` increases by one; a newline increments `line` and resets
`column` to zero; any other character increments `column`. -/
def consume_char (st : ScanState) (c : Char) : ScanState :=
  if c = '\n' then
    { line := st.line + 1, column := 0, chars_read := st.chars_read + 1 }
  else
    { line := st.line, column := st.column + 1, chars_read := st.chars_read + 1 }

/-- One item yielded by the `Utf8Iter` iterator feeding the scanner: a
decoded character, an invalid-bytes error, or an IO error. The `End` error
is not an item: the `Iterator` impl (utf8 reader lines 166-175) maps it to
`None`, so it is the end of the item list. -/
inductive Utf8Item where
  | ch (c : Char)
  | invalid (bytes : List Nat)
  | ioErr (msg : String)
deriving DecidableEq, Repr

/-- Embeds `ParseError` (html parser lines 367-387). `desync` models the
`panic!` in the two scanner loops (lines 204-212 and 272-280), reachable
only when the sought literal is empty. -/
inductive ParseError where
  | unterminatedInput (expected : Str) (closest : Option (Str × Location))
  | invalidUtf8 (location : Location) (bytes : List Nat)
  | ioError (location : Location) (error : String)
  | dateParseError (location : Location) (invalid_date : Str)
  | noRows
  | desync
deriving DecidableEq, Repr

/-- Embeds `ParseError::from_utf8_error` (html parser lines 390-405) for the
two error shapes that can occur as iterator items. -/
def from_utf8_error (e : Utf8Item) (location : Location) : ParseError :=
  match e with
  | .ch _ => ParseError.desync
  | .invalid bytes => ParseError.invalidUtf8 location bytes
  | .ioErr msg => ParseError.ioError location msg

/-- The loop of `ModelsParser::skip_to` (html parser lines 193-239), with the
mutable locals `closest`, `closest_location`, `found`, `found_location` as
accumulator arguments. Returns the result, the final counter state and the
items left in the iterator. -/
def skip_to_aux (s : Str) : ScanState → List Utf8Item → Str → Location → Str → Location →
    Except ParseError Unit × ScanState × List Utf8Item
  | st, [], closest, closest_location, _, _ =>
    (Except.error (ParseError.unterminatedInput s
        (if closest = [] then none else some (closest, closest_location))), st, [])
  | st, item :: rest, closest, closest_location, found, found_location =>
    match item with
    | .invalid bytes => (Except.error (ParseError.invalidUtf8 st.location bytes), st, rest)
    | .ioErr msg => (Except.error (ParseError.ioError st.location msg), st, rest)
    | .ch c =>
      let st' := consume_char st c
      match s.get? found.length with
      | none => (Except.error ParseError.desync, st', rest)
      | some want =>
        if want = c then
          let found_location' :=
            if found.length = 0 then
              Location.mk st'.chars_read st'.column st'.line
            else found_location
          let found' := found ++ [c]
          if found' = s then (Except.ok (), st', rest)
          else skip_to_aux s st' rest closest closest_location found' found_location'
        else
          if found.length > 0 then
            let found' := found ++ [c]
            if found'.length > closest.length then
              skip_to_aux s st' rest found' found_location [] found_location
            else
              skip_to_aux s st' rest closest closest_location [] found_location
          else
            skip_to_aux s st' rest closest closest_location [] found_location

/-- Embeds `ModelsParser::skip_to` (html parser lines 186-250). -/
def skip_to (st : ScanState) (items : List Utf8Item) (s : Str) :
    Except ParseError Unit × ScanState × List Utf8Item :=
  skip_to_aux s st items [] Location.default [] Location.default

/-- The loop of `ModelsParser::read_until` (html parser lines 261-316), with
the additional accumulator `read`. -/
def read_until_aux (s : Str) : ScanState → List Utf8Item → Str → Location → Str → Location →
    Str → Except ParseError Str × ScanState × List Utf8Item
  | st, [], closest, closest_location, _, _, _ =>
    (Except.error (ParseError.unterminatedInput s
        (if closest = [] then none else some (closest, closest_location))), st, [])
  | st, item :: rest, closest, closest_location, found, found_location, read =>
    match item with
    | .invalid bytes => (Except.error (ParseError.invalidUtf8 st.location bytes), st, rest)
    | .ioErr msg => (Except.error (ParseError.ioError st.location msg), st, rest)
    | .ch c =>
      let st' := consume_char st c
      match s.get? found.length with
      | none => (Except.error ParseError.desync, st', rest)
      | some want =>
        if want = c then
          let found_location' :=
            if found.length = 0 then
              Location.mk st'.chars_read st'.column st'.line
            else found_location
          let found' := found ++ [c]
          if found' = s then (Except.ok read, st', rest)
          else read_until_aux s st' rest closest closest_location found' found_location' read
        else
          if found.length > 0 then
            let found' := found ++ [c]
            let read' := push_collapse_whitespace read found'
            if found'.length > closest.length then
              read_until_aux s st' rest found' found_location [] found_location read'
            else
              read_until_aux s st' rest closest closest_location [] found_location read'
          else
            read_until_aux s st' rest closest closest_location [] found_location
              (push_collapse_whitespace read [c])

/-- Embeds `ModelsParser::read_until` (html parser lines 252-327). -/
def read_until (st : ScanState) (items : List Utf8Item) (s : Str) :
    Except ParseError Str × ScanState × List Utf8Item :=
  read_until_aux s st items [] Location.default [] Location.default []

/-- Embeds `ModelsParser::peek` (html parser lines 329-338). The counter
state and the iterator are returned unchanged: `Peekable::peek` consumes
nothing. -/
def peek (st : ScanState) (items : List Utf8Item) :
    Except ParseError Char × ScanState × List Utf8Item :=
  (match items.head? with
   | some (.ch c) => Except.ok c
   | some e => Except.error (from_utf8_error e st.location)
   | none => Except.error (ParseError.unterminatedInput "any character".toList none),
   st, items)

/-- The characters among a list of iterator items. -/
def item_chars : List Utf8Item → Str
  | [] => []
  | .ch c :: rest => c :: item_chars rest
  | _ :: rest => item_chars rest

/-!
Model layer (`model.rs`). `Rc<Channel>` / `Rc<Video>` are modelled as plain
values; the two `HashMap`s are modelled as association lists in insertion
order, with `insert` replacing the binding of an existing key in place.
Strings are `Str` (`List Char`); `chrono` timestamps are opaque integers.
-/

/-- Embeds `Channel` (model.rs lines 13-17). -/
structure Channel where
  url : Str
  name : Str
deriving DecidableEq, Repr

/-- Embeds `Video` (model.rs lines 33-38); the `Rc<Channel>` is inlined. -/
structure Video where
  url : Str
  title : Str
  channel : Channel
deriving DecidableEq, Repr

/-- Embeds `Watched` (model.rs lines 55-59); `when` is an opaque timestamp. -/
structure Watched where
  video : Video
  when : Int
deriving DecidableEq, Repr

/-- An association-list model of a Rust `HashMap<String, V>`. -/
abbrev StrMap (V : Type) := List (Str × V)

/-- `HashMap::get`. -/
def map_get {V : Type} : StrMap V → Str → Option V
  | [], _ => none
  | p :: rest, k => if p.1 = k then some p.2 else map_get rest k

/-- Key membership in the association-list map. -/
def map_has {V : Type} : StrMap V → Str → Bool
  | [], _ => false
  | p :: rest, k => p.1 = k || map_has rest k

/-- `HashMap::insert`: replaces the binding of an existing key in place,
otherwise appends a new binding. -/
def map_insert {V : Type} (m : StrMap V) (k : Str) (v : V) : StrMap V :=
  if map_has m k then m.map (fun p => if p.1 = k then (k, v) else p)
  else m ++ [(k, v)]

/-- Embeds `Models` (model.rs lines 67-72). -/
structure Models where
  watches : List Watched
  channels : StrMap Channel
  videos : StrMap Video
deriving DecidableEq, Repr

/-- Embeds `Models::new` (model.rs lines 82-88). -/
def Models.new : Models := ⟨[], [], []⟩

/-- Embeds `ChannelMatcher` (model.rs lines 310-313). -/
structure ChannelMatcher where
  url : Option Str
  name : Option Str

/-- Embeds `ChannelMatcher::matches` (model.rs lines 315-330): a present
`url` field decides alone; otherwise a present `name` field must agree. -/
def ChannelMatcher.matches (m : ChannelMatcher) (c : Channel) : Bool :=
  match m.url with
  | some url => c.url = url
  | none =>
    match m.name with
    | some name => c.name = name
    | none => true

/-- Embeds `WhereChannel` (model.rs lines 332-336). -/
inductive WhereChannel where
  | Structure (m : ChannelMatcher)
  | Reference (c : Channel)
  | Any

/-- Embeds `Models::find_channel` (model.rs lines 175-191). -/
def find_channel (ms : Models) (w : WhereChannel) : Option Channel :=
  match w with
  | .Structure m =>
    match m.url with
    | some url => map_get ms.channels url
    | none => (ms.channels.find? (fun p => m.matches p.2)).map (·.2)
  | .Reference c => some c
  | .Any => ms.channels.head?.map (·.2)

/-- Embeds `VideoMatcher` (model.rs lines 348-352), without the unused
channel field nesting (claims only exercise the url form). -/
structure VideoMatcher where
  url : Option Str
  title : Option Str

/-- Embeds `WhereVideo` (model.rs lines 378-383). -/
inductive WhereVideo where
  | Structure (m : VideoMatcher)
  | Reference (v : Video)
  | Any

/-- Embeds `Models::find_video` (model.rs lines 193-209) for the matcher
shapes the program uses. -/
def find_video (ms : Models) (w : WhereVideo) : Option Video :=
  match w with
  | .Structure m =>
    match m.url with
    | some url => map_get ms.videos url
    | none =>
      (ms.videos.find? (fun p =>
        match m.title with
        | some t => p.2.title = t
        | none => true)).map (·.2)
  | .Reference v => some v
  | .Any => ms.videos.head?.map (·.2)

/-- Embeds `Models::insert_channel` (model.rs lines 156-161). -/
def insert_channel (ms : Models) (url : Str) (name : Str) : Channel × Models :=
  let channel : Channel := ⟨url, name⟩
  (channel, { ms with channels := map_insert ms.channels channel.url channel })

/-- Embeds `Models::insert_video` (model.rs lines 163-173). The
`find_channel(channel).unwrap()` of the source is fallible; `none` models
the panic (unreachable from the program's call sites, which pass
`WhereChannel::Reference`). -/
def insert_video (ms : Models) (url : Str) (title : Str) (channel : WhereChannel) :
    Option (Video × Models) :=
  (find_channel ms channel).map (fun c =>
    let video : Video := ⟨url, title, c⟩
    (video, { ms with videos := map_insert ms.videos video.url video }))

/-- Embeds `Models::insert_watched` (model.rs lines 144-154); `none` models
the `find_video(video).unwrap()` panic. -/
def insert_watched (ms : Models) (when : Int) (video : WhereVideo) :
    Option (Watched × Models) :=
  (find_video ms video).map (fun v =>
    let watched : Watched := ⟨v, when⟩
    (watched, { ms with watches := ms.watches ++ [watched] }))

/-- Embeds `Models::find_or_create_channel` (model.rs lines 211-220). -/
def find_or_create_channel (ms : Models) (url : Str) (name : Str) : Channel × Models :=
  match find_channel ms (.Structure ⟨some url, some name⟩) with
  | some channel => (channel, ms)
  | none => insert_channel ms url name

/-- Embeds `Models::find_or_create_video` (model.rs lines 222-234). The
inner `insert_video` with a `Reference` channel always succeeds; `getD`
keeps the function total (the `none` branch is unreachable). -/
def find_or_create_video (ms : Models) (url : Str) (title : Str) (channel : Channel) :
    Video × Models :=
  match map_get ms.videos url with
  | some video => (video, ms)
  | none =>
    let (channel', ms1) := find_or_create_channel ms channel.url channel.name
    (insert_video ms1 url title (.Reference channel')).getD (⟨url, title, channel'⟩, ms1)

/-!
HTML record extractor (`html_parser.rs`). The `chrono` date parsing of the
fixed layout `DATE_FORMAT` lives outside this repository; the extractor is
parameterised over it (`date_parse`), with `none` standing for a
`chrono::ParseError`.
-/

/-- The anchor literal `ANCHOR_OPENING_TO_HREF` (html parser line 14);
U+00A0 is a non-breaking space. -/
def ANCHOR_OPENING_TO_HREF : Str := "Watched\u00A0<a href=\"".toList

/-- Embeds the html parser `DataRow` (lines 30-37). -/
structure DataRow where
  url : Str
  title : Str
  channel_name : Str
  channel_url : Str
  date : Int
deriving DecidableEq, Repr

/-- Embeds `DataRow::default` (lines 39-49); `chrono MIN_UTC` is modelled as
timestamp 0 (the value is always overwritten before a row is returned). -/
def DataRow.default : DataRow := ⟨[], [], [], [], 0⟩

/-- Embeds `ModelsParser::next_data_row` (html parser lines 130-184),
threading the counter state and the remaining iterator items explicitly.
`date_parse` models `chrono::Utc.datetime_from_str(_, DATE_FORMAT)`. -/
def next_data_row (date_parse : Str → Option Int) (st : ScanState) (items : List Utf8Item) :
    Except ParseError (Option DataRow) × ScanState × List Utf8Item :=
  match skip_to st items ANCHOR_OPENING_TO_HREF with
  | (Except.error (ParseError.unterminatedInput _ _), st1, it1) => (Except.ok none, st1, it1)
  | (Except.error e, st1, it1) => (Except.error e, st1, it1)
  | (Except.ok (), st1, it1) =>
  match read_until st1 it1 "\"".toList with
  | (Except.error e, st2, it2) => (Except.error e, st2, it2)
  | (Except.ok url, st2, it2) =>
  match skip_to st2 it2 ">".toList with
  | (Except.error e, st3, it3) => (Except.error e, st3, it3)
  | (Except.ok (), st3, it3) =>
  match read_until st3 it3 "<".toList with
  | (Except.error e, st4, it4) => (Except.error e, st4, it4)
  | (Except.ok title, st4, it4) =>
  match skip_to st4 it4 "<br />".toList with
  | (Except.error e, st5, it5) => (Except.error e, st5, it5)
  | (Except.ok (), st5, it5) =>
  match peek st5 it5 with
  | (Except.error e, st6, it6) => (Except.error e, st6, it6)
  | (Except.ok c, st6, it6) =>
  let after_channel :
      Except ParseError (Str × Str) × ScanState × List Utf8Item :=
    if c = '<' then
      match skip_to st6 it6 "\"".toList with
      | (Except.error e, st7, it7) => (Except.error e, st7, it7)
      | (Except.ok (), st7, it7) =>
      match read_until st7 it7 "\"".toList with
      | (Except.error e, st8, it8) => (Except.error e, st8, it8)
      | (Except.ok channel_url, st8, it8) =>
      match skip_to st8 it8 ">".toList with
      | (Except.error e, st9, it9) => (Except.error e, st9, it9)
      | (Except.ok (), st9, it9) =>
      match read_until st9 it9 "<".toList with
      | (Except.error e, st10, it10) => (Except.error e, st10, it10)
      | (Except.ok channel_name, st10, it10) =>
      match skip_to st10 it10 "<br />".toList with
      | (Except.error e, st11, it11) => (Except.error e, st11, it11)
      | (Except.ok (), st11, it11) => (Except.ok (channel_url, channel_name), st11, it11)
    else if c = 'W' then
      match skip_to st6 it6 "<br />".toList with
      | (Except.error e, st7, it7) => (Except.error e, st7, it7)
      | (Except.ok (), st7, it7) => (Except.ok ([], []), st7, it7)
    else
      (Except.ok ([], []), st6, it6)
  match after_channel with
  | (Except.error e, st7, it7) => (Except.error e, st7, it7)
  | (Except.ok (channel_url, channel_name), st7, it7) =>
  match read_until st7 it7 "\n".toList with
  | (Except.error e, st8, it8) => (Except.error e, st8, it8)
  | (Except.ok date_string, st8, it8) =>
  match date_parse date_string with
  | some date =>
    (Except.ok (some ⟨url, title, channel_name, channel_url, date⟩), st8, it8)
  | none =>
    (Except.error (ParseError.dateParseError st8.location date_string), st8, it8)

/-- Embeds `ModelsParser::insert_row` (html parser lines 116-128). The
`insert_watched` call is on a `WhereVideo::Reference` and always succeeds;
the `getD` branch is unreachable. -/
def insert_row (ms : Models) (row : DataRow) : Models :=
  let (channel, ms1) := find_or_create_channel ms row.channel_url row.channel_name
  let (video, ms2) := find_or_create_video ms1 row.url row.title channel
  ((insert_watched ms2 row.date (.Reference video)).map (·.2)).getD ms2

/-- The `loop` of `ModelsParser::parse` (html parser lines 81-91), with
explicit fuel (one unit per extracted row; `none` = fuel exhausted, which
actual runs never reach because every extracted row consumes at least one
item). -/
def parse_loop (date_parse : Str → Option Int) :
    Nat → ScanState → Models → List Utf8Item →
    Option (Except ParseError Unit × ScanState × Models)
  | 0, _, _, _ => none
  | fuel + 1, st, ms, items =>
    match next_data_row date_parse st items with
    | (Except.error e, st1, _) => some (Except.error e, st1, ms)
    | (Except.ok none, st1, _) => some (Except.ok (), st1, ms)
    | (Except.ok (some row), st1, it1) => parse_loop date_parse fuel st1 (insert_row ms row) it1

/-- Embeds `ModelsParser::parse` (html parser lines 68-92): the first row is
required (`NoRows` otherwise), then rows are folded until `next_data_row`
reports no more rows. The fuel `items.length + 1` is always sufficient. -/
def parse (date_parse : Str → Option Int) (st : ScanState) (ms : Models)
    (items : List Utf8Item) : Option (Except ParseError Unit × ScanState × Models) :=
  match next_data_row date_parse st items with
  | (Except.error e, st1, _) => some (Except.error e, st1, ms)
  | (Except.ok none, st1, _) => some (Except.error ParseError.noRows, st1, ms)
  | (Except.ok (some row), st1, it1) =>
    parse_loop date_parse (items.length + 1) st1 (insert_row ms row) it1

/-- Reference extraction sequence: the rows `next_data_row` yields until it
reports no more rows (`Except.ok true`), an error (`Except.error e`), or
fuel runs out (`Except.ok false`, never reached in actual runs). -/
def extract_rows (date_parse : Str → Option Int) :
    Nat → ScanState → List Utf8Item → List DataRow × Except ParseError Bool × ScanState
  | 0, st, _ => ([], Except.ok false, st)
  | fuel + 1, st, items =>
    match next_data_row date_parse st items with
    | (Except.error e, st1, _) => ([], Except.error e, st1)
    | (Except.ok none, st1, _) => ([], Except.ok true, st1)
    | (Except.ok (some row), st1, it1) =>
      let (rows, r, st2) := extract_rows date_parse fuel st1 it1
      (row :: rows, r, st2)

/-!
JSON parser (`json_parser.rs`). `chrono::DateTime::parse_from_rfc3339` lives
outside this repository and is a parameter (`rfc3339`); serde field decoding
is not involved in the claims, so rows arrive already structured.
-/

/-- The constant `DEFAULT_CHANNEL` (json parser line 7). -/
def DEFAULT_CHANNEL : Str := "(hidden)".toList

/-- Embeds the json parser `Subtitles` (lines 23-28). -/
structure Subtitles where
  name : Str
  url : Str
deriving DecidableEq, Repr

/-- Embeds the json parser `DataRow` (lines 9-21). -/
structure JsonDataRow where
  header : Str
  title : Str
  title_url : Str
  subtitles : List Subtitles
  time : Str
  products : List Str
  activity_controls : List Str
deriving DecidableEq, Repr

/-- The channel (name, url) pair a json row contributes (json parser lines
43-51): the first subtitle if present, otherwise `DEFAULT_CHANNEL` twice. -/
def json_row_channel (row : JsonDataRow) : Str × Str :=
  match row.subtitles.head? with
  | some s => (s.name, s.url)
  | none => (DEFAULT_CHANNEL, DEFAULT_CHANNEL)

/-- The stored title of a json row (json parser lines 54-58): a
`"Watched "` prefix is removed (the source slices bytes `[8..]`; the prefix
is ASCII, so dropping 8 characters is the same). -/
def json_row_title (row : JsonDataRow) : Str :=
  if "Watched ".toList.isPrefixOf row.title then row.title.drop 8 else row.title

/-- The loop body of `json_parser::parse` (lines 34-64) folded over the
rows; `none` models a propagated rfc3339 date error. -/
def json_parse_rows (rfc3339 : Str → Option Int) : List JsonDataRow → Models → Option Models
  | [], ms => some ms
  | row :: rest, ms =>
    if row.title = "Visited YouTube Music".toList then
      json_parse_rows rfc3339 rest ms
    else
      let channel_name := (json_row_channel row).1
      let channel_url := (json_row_channel row).2
      match rfc3339 row.time with
      | none => none
      | some date =>
        let title := json_row_title row
        let (channel, ms1) := find_or_create_channel ms channel_url channel_name
        let (video, ms2) := find_or_create_video ms1 row.title_url title channel
        let ms3 := ((insert_watched ms2 date (.Reference video)).map (·.2)).getD ms2
        json_parse_rows rfc3339 rest ms3

/-- Embeds `json_parser::parse` (lines 30-67) given the already-decoded
rows. -/
def json_parse (rfc3339 : Str → Option Int) (rows : List JsonDataRow) : Option Models :=
  json_parse_rows rfc3339 rows Models.new

/-!
Cache format (`Models::to_string` / `Models::from_str`, model.rs lines
236-307). The serde_json text layer lives outside this repository and is
modelled as lossless transport of the `ScalarModels` value: `to_string`
produces the scalar representation and `from_str` consumes one.
-/

/-- Embeds `ScalarChannel` (model.rs lines 27-31). -/
structure ScalarChannel where
  url : Str
  name : Str
deriving DecidableEq, Repr

/-- Embeds `ScalarVideo` (model.rs lines 48-53). -/
structure ScalarVideo where
  url : Str
  title : Str
  channel : Str
deriving DecidableEq, Repr

/-- Embeds `ScalarWatched` (model.rs lines 61-65). -/
structure ScalarWatched where
  video : Str
  when : Int
deriving DecidableEq, Repr

/-- Embeds `ScalarModels` (model.rs lines 74-79). -/
structure ScalarModels where
  watches : List ScalarWatched
  channels : List ScalarChannel
  videos : List ScalarVideo
deriving DecidableEq, Repr

/-- Embeds `Models::to_string` (model.rs lines 236-266). Modelled from the
spec: the `serde_json::to_string` call (outside src/) is modelled as
producing the `ScalarModels` value it would serialize; the map iteration
order is the association-list order. -/
def Models.to_string (ms : Models) : ScalarModels :=
  { watches := ms.watches.map (fun w => ⟨w.video.url, w.when⟩)
    channels := ms.channels.map (fun p => ⟨p.2.url, p.2.name⟩)
    videos := ms.videos.map (fun p => ⟨p.2.url, p.2.title, p.2.channel.url⟩) }

/-- The channel-loading loop of `Models::from_str` (model.rs lines 277-285). -/
def from_str_channels (cs : List ScalarChannel) (acc : StrMap Channel) : StrMap Channel :=
  match cs with
  | [] => acc
  | c :: rest =>
    let channel : Channel := ⟨c.url, c.name⟩
    from_str_channels rest (map_insert acc channel.url channel)

/-- The video-loading loop of `Models::from_str` (model.rs lines 287-295);
`none` models the `channels.get(..).unwrap()` panic on a dangling channel
key. -/
def from_str_videos (channels : StrMap Channel) (vs : List ScalarVideo)
    (acc : StrMap Video) : Option (StrMap Video) :=
  match vs with
  | [] => some acc
  | v :: rest =>
    match map_get channels v.channel with
    | none => none
    | some channel =>
      let video : Video := ⟨v.url, v.title, channel⟩
      from_str_videos channels rest (map_insert acc video.url video)

/-- The watch-loading loop of `Models::from_str` (model.rs lines 297-304);
`none` models the `videos.get(..).unwrap()` panic on a dangling video key. -/
def from_str_watches (videos : StrMap Video) (ws : List ScalarWatched)
    (acc : List Watched) : Option (List Watched) :=
  match ws with
  | [] => some acc
  | w :: rest =>
    match map_get videos w.video with
    | none => none
    | some video => from_str_watches videos rest (acc ++ [⟨video, w.when⟩])

/-- Embeds `Models::from_str` (model.rs lines 268-307). Modelled from the
spec: the `serde_json::from_str` call (outside src/) is modelled as
receiving the `ScalarModels` value the text encodes. -/
def Models.from_str (sm : ScalarModels) : Option Models :=
  let channels := from_str_channels sm.channels []
  match from_str_videos channels sm.videos [] with
  | none => none
  | some videos =>
    match from_str_watches videos sm.watches [] with
    | none => none
    | some watches => some ⟨watches, channels, videos⟩

/-!
UTF-8 decoder (`utf8_reader.rs`). Bytes are naturals; the underlying reader
is a list of byte chunks, one chunk per read call, after which every read
reports zero bytes. The fixed 4096-byte array is modelled as an unbounded
buffer: a read call delivers its whole chunk (a chunk larger than the free
buffer space is delivered across several read calls by the real code, which
is one of the chunkings the chunk-invariance theorem covers). Fuel threads
through the read loop; `none` models non-termination (the loop re-running
forever on a source that only reports zero bytes).
-/

/-- The outcome of one step of `str::from_utf8` on the first code point:
a decoded scalar with its byte length, an invalid sequence of a known
length (`Utf8Error::error_len() == Some n`), an incomplete trailing
sequence (`error_len() == None`), or an empty input. -/
inductive DecodeFirst where
  | ok (c : Char) (len : Nat)
  | invalid (n : Nat)
  | incomplete
  | empty
deriving DecidableEq, Repr

/-- A UTF-8 continuation byte (0x80..=0xBF). -/
def utf8_cont (b : Nat) : Bool := 0x80 ≤ b && b ≤ 0xBF

/-- Allowed second byte of a three-byte sequence, per first byte. -/
def utf8_second3 (b0 b1 : Nat) : Bool :=
  if b0 = 0xE0 then 0xA0 ≤ b1 && b1 ≤ 0xBF
  else if b0 = 0xED then 0x80 ≤ b1 && b1 ≤ 0x9F
  else utf8_cont b1

/-- Allowed second byte of a four-byte sequence, per first byte. -/
def utf8_second4 (b0 b1 : Nat) : Bool :=
  if b0 = 0xF0 then 0x90 ≤ b1 && b1 ≤ 0xBF
  else if b0 = 0xF4 then 0x80 ≤ b1 && b1 ≤ 0x8F
  else utf8_cont b1

/-- Validation of the first code point of a byte list, following the Rust
standard library `run_utf8_validation` (which `str::from_utf8` uses):
byte-width classification of the first byte, then the constrained second
byte and plain continuation bytes, reporting `error_len` as the length of
the rejected prefix and `incomplete` when input ends inside a sequence. -/
def decode_first : List Nat → DecodeFirst
  | [] => .empty
  | b0 :: rest =>
    if b0 < 0x80 then .ok (Char.ofNat b0) 1
    else if b0 < 0xC2 then .invalid 1
    else if b0 < 0xE0 then
      match rest with
      | [] => .incomplete
      | b1 :: _ =>
        if utf8_cont b1 then .ok (Char.ofNat ((b0 - 0xC0) * 64 + (b1 - 0x80))) 2
        else .invalid 1
    else if b0 < 0xF0 then
      match rest with
      | [] => .incomplete
      | b1 :: rest1 =>
        if utf8_second3 b0 b1 then
          match rest1 with
          | [] => .incomplete
          | b2 :: _ =>
            if utf8_cont b2 then
              .ok (Char.ofNat ((b0 - 0xE0) * 4096 + (b1 - 0x80) * 64 + (b2 - 0x80))) 3
            else .invalid 2
        else .invalid 1
    else if b0 < 0xF5 then
      match rest with
      | [] => .incomplete
      | b1 :: rest1 =>
        if utf8_second4 b0 b1 then
          match rest1 with
          | [] => .incomplete
          | b2 :: rest2 =>
            if utf8_cont b2 then
              match rest2 with
              | [] => .incomplete
              | b3 :: _ =>
                if utf8_cont b3 then
                  .ok (Char.ofNat ((b0 - 0xF0) * 262144 + (b1 - 0x80) * 4096 +
                    (b2 - 0x80) * 64 + (b3 - 0x80))) 4
                else .invalid 3
            else .invalid 2
        else .invalid 1
    else .invalid 1

/-- Fueled whole-buffer validation, the model of `str::from_utf8` on the
buffer: the decoded characters of the maximal valid prefix, the remaining
bytes from `valid_up_to()` on, and the error status there (`none` = the
whole input is valid, `some none` = `error_len() == None`, `some (some n)`
= `error_len() == Some n`). The fuel only bounds recursion depth;
`utf8_validate` supplies a sufficient amount. -/
def utf8_validate_go : Nat → List Nat → Str × List Nat × Option (Option Nat)
  | fuel, bs =>
    match decode_first bs with
    | .empty => ([], bs, none)
    | .incomplete => ([], bs, some none)
    | .invalid n => ([], bs, some (some n))
    | .ok c len =>
      match fuel with
      | 0 => ([], bs, some none)
      | fuel' + 1 =>
        let r := utf8_validate_go fuel' (bs.drop len)
        (c :: r.1, r.2.1, r.2.2)

/-- The model of `str::from_utf8` on a whole buffer. -/
def utf8_validate (bs : List Nat) : Str × List Nat × Option (Option Nat) :=
  utf8_validate_go bs.length bs

/-- The read-and-validate loop of `Utf8Iter::next` (utf8 reader lines
91-162), entered with an empty pending-characters queue. One fuel unit per
loop iteration; `none` models the loop running forever (each further
iteration repeats the same zero-byte read), or the unreachable
`chars.pop().unwrap()` panic on an empty fully-valid buffer. Returns the
produced value (`none` = `Error::End`), the queued characters, the bytes
kept in the buffer, and the chunks still unread. -/
def utf8_next_loop : Nat → List Nat → List (List Nat) →
    Option (Option Utf8Item × List Char × List Nat × List (List Nat))
  | 0, _, _ => none
  | fuel + 1, buf, src =>
    let read : Nat × List Nat × List (List Nat) :=
      match src with
      | [] => (0, buf, [])
      | chunk :: rest => (chunk.length, buf ++ chunk, rest)
    let n := read.1
    let buf' := read.2.1
    let src' := read.2.2
    if n = 0 ∧ buf' = [] then some (none, [], [], src')
    else
      match utf8_validate buf' with
      | (c :: cs, rem, _) => some (some (.ch c), cs, rem, src')
      | ([], rem, some (some k)) => some (some (.invalid (rem.take k)), [], rem.drop k, src')
      | ([], _, some none) => utf8_next_loop fuel buf' src'
      | ([], _, none) => none

/-- Embeds `Utf8Iter::next` (utf8 reader lines 85-163): pop a pending
character if one is queued, otherwise run the read loop. -/
def utf8_next (fuel : Nat) (chars : List Char) (buf : List Nat) (src : List (List Nat)) :
    Option (Option Utf8Item × List Char × List Nat × List (List Nat)) :=
  match chars with
  | c :: cs => some (some (.ch c), cs, buf, src)
  | [] => utf8_next_loop fuel buf src

/-- Repeated calls of `Utf8Iter::next`, collecting the produced outcomes
(characters and invalid spans, in order) until `End`; `none` models
non-termination (fuel is also passed to each inner read loop). -/
def run_utf8 : Nat → List Char → List Nat → List (List Nat) → Option (List Utf8Item)
  | 0, _, _, _ => none
  | fuel + 1, chars, buf, src =>
    match utf8_next (fuel + 1) chars buf src with
    | none => none
    | some (none, _, _, _) => some []
    | some (some item, chars', buf', src') =>
      (run_utf8 fuel chars' buf' src').map (item :: ·)

/-- Total number of bytes a chunked source delivers. -/
def total_bytes (src : List (List Nat)) : Nat := (src.map List.length).sum

/-- The sequence of decode outcomes a fresh `Utf8Iter` produces on a chunked
source, up to the first `End`; the supplied fuel is always sufficient, so
`none` means the decoder loops forever on this source. -/
def decode_chunks (src : List (List Nat)) : Option (List Utf8Item) :=
  run_utf8 (total_bytes src + src.length + 2) [] [] src

/-- Fueled reference decoder over a single flat byte list: the outcomes of
decoding greedily (maximal-prefix characters, known-length invalid spans),
and whether the input ends in an incomplete trailing sequence. -/
def utf8_ref_go : Nat → List Nat → List Utf8Item × Bool
  | fuel, bs =>
    match decode_first bs with
    | .empty => ([], false)
    | .incomplete => ([], true)
    | .invalid n =>
      match fuel with
      | 0 => ([], false)
      | fuel' + 1 =>
        let r := utf8_ref_go fuel' (bs.drop n)
        (.invalid (bs.take n) :: r.1, r.2)
    | .ok c len =>
      match fuel with
      | 0 => ([], false)
      | fuel' + 1 =>
        let r := utf8_ref_go fuel' (bs.drop len)
        (.ch c :: r.1, r.2)

/-- Reference decoding of a flat byte list. -/
def utf8_ref (bs : List Nat) : List Utf8Item × Bool :=
  utf8_ref_go bs.length bs

/-- The outcome sequence a decoder state owes: the queued characters, then
the reference decoding of the bytes still in the buffer and the source;
`none` when that decoding ends in an incomplete trailing sequence (on which
the read loop never terminates). -/
def owed_outcomes (chars : List Char) (buf : List Nat) (src : List (List Nat)) :
    Option (List Utf8Item) :=
  if (utf8_ref (buf ++ src.flatten)).2 then none
  else some (chars.map Utf8Item.ch ++ (utf8_ref (buf ++ src.flatten)).1)

/-!
Theorems. Helper lemmas first, then one theorem per claim (with
counterexamples and witnesses where required).
-/

theorem map_get_append_fresh {V : Type} (m : StrMap V) (k : Str) (v : V)
    (h : map_has m k = false) :
    map_get (m ++ [(k, v)]) k = some v := by
  induction m with
  | nil => simp [map_get]
  | cons p rest ih =>
    simp only [map_has, Bool.or_eq_false_iff, decide_eq_false_iff_not] at h
    simp only [List.cons_append, map_get, if_neg h.1]
    exact ih h.2

theorem map_get_map_insert_found {V : Type} (m : StrMap V) (k : Str) (v : V)
    (h : map_has m k = true) :
    map_get (m.map (fun p => if p.1 = k then (k, v) else p)) k = some v := by
  induction m with
  | nil => simp [map_has] at h
  | cons p rest ih =>
    by_cases hp : p.1 = k
    · simp [map_get, hp]
    · simp only [map_has, Bool.or_eq_true_iff, decide_eq_true_eq, hp, false_or] at h
      simp only [List.map_cons, if_neg hp, map_get, hp, if_false]
      exact ih h

theorem map_get_insert_same {V : Type} (m : StrMap V) (k : Str) (v : V) :
    map_get (map_insert m k v) k = some v := by
  unfold map_insert
  by_cases h : map_has m k = true
  · rw [if_pos h]
    exact map_get_map_insert_found m k v h
  · rw [if_neg h]
    exact map_get_append_fresh m k v (by simpa using h)

/-- C9: channel deduplication considers only the URL: a first
`find_or_create_channel (url, name1)` stores the channel `⟨url, name1⟩`,
and a later call with the same url and a different name returns that stored
channel unchanged and creates nothing new, so the first-seen name wins. -/
theorem C9_channel_dedup_by_url (ms : Models) (url n1 n2 : Str)
    (hne : n1 ≠ n2) (hfresh : map_get ms.channels url = none) :
    (find_or_create_channel ms url n1).1 = ⟨url, n1⟩ ∧
    find_or_create_channel (find_or_create_channel ms url n1).2 url n2 =
      ((find_or_create_channel ms url n1).1, (find_or_create_channel ms url n1).2) := by
  have h1 : find_or_create_channel ms url n1 =
      (⟨url, n1⟩, { ms with channels := map_insert ms.channels url (⟨url, n1⟩ : Channel) }) := by
    unfold find_or_create_channel find_channel
    simp [hfresh, insert_channel]
  refine ⟨by rw [h1], ?_⟩
  rw [h1]
  unfold find_or_create_channel find_channel
  simp [map_get_insert_same]

theorem C9_channel_dedup_by_url_witness :
    ("a".toList ≠ "b".toList ∧ map_get Models.new.channels "u".toList = none) ∧
    ((find_or_create_channel Models.new "u".toList "a".toList).1 =
        ⟨"u".toList, "a".toList⟩ ∧
      find_or_create_channel
          (find_or_create_channel Models.new "u".toList "a".toList).2
          "u".toList "b".toList =
        ((find_or_create_channel Models.new "u".toList "a".toList).1,
          (find_or_create_channel Models.new "u".toList "a".toList).2)) :=
  ⟨⟨by decide, by decide⟩,
    C9_channel_dedup_by_url Models.new "u".toList "a".toList "b".toList
      (by decide) (by decide)⟩

/-- C8: a json row titled "Visited YouTube Music" contributes nothing (no
video, no watch) to the resulting model; a row with an empty (or absent,
serde-defaulted) subtitles array uses the fixed default `DEFAULT_CHANNEL` =
"(hidden)" as both the channel name and the channel url passed to
`find_or_create_channel` for its video. -/
theorem C8_music_skipped_and_hidden_default :
    (∀ (rfc : Str → Option Int) (row : JsonDataRow) (rest : List JsonDataRow) (ms : Models),
      row.title = "Visited YouTube Music".toList →
      json_parse_rows rfc (row :: rest) ms = json_parse_rows rfc rest ms) ∧
    (∀ row : JsonDataRow, row.subtitles = [] →
      json_row_channel row = (DEFAULT_CHANNEL, DEFAULT_CHANNEL)) ∧
    DEFAULT_CHANNEL = "(hidden)".toList ∧
    (∀ (rfc : Str → Option Int) (row : JsonDataRow) (rest : List JsonDataRow) (ms : Models)
        (d : Int),
      row.subtitles = [] → row.title ≠ "Visited YouTube Music".toList →
      rfc row.time = some d →
      json_parse_rows rfc (row :: rest) ms =
        (let r1 := find_or_create_channel ms DEFAULT_CHANNEL DEFAULT_CHANNEL
         let r2 := find_or_create_video r1.2 row.title_url (json_row_title row) r1.1
         json_parse_rows rfc rest
           (((insert_watched r2.2 d (.Reference r2.1)).map (·.2)).getD r2.2))) := by
  refine ⟨?_, ?_, by decide, ?_⟩
  · intro rfc row rest ms h
    simp [json_parse_rows, h]
  · intro row h
    simp [json_row_channel, h, DEFAULT_CHANNEL]
  · intro rfc row rest ms d hsub htitle hrfc
    simp only [json_parse_rows]
    rw [if_neg htitle]
    simp [json_row_channel, hsub, hrfc]

theorem C8_music_skipped_and_hidden_default_witness :
    ((⟨[], "Visited YouTube Music".toList, [], [], [], [], []⟩ : JsonDataRow).title =
        "Visited YouTube Music".toList ∧
      json_parse_rows (fun _ => some 0)
          [⟨[], "Visited YouTube Music".toList, [], [], [], [], []⟩] Models.new =
        json_parse_rows (fun _ => some 0) [] Models.new) ∧
    ((⟨[], "t".toList, "v".toList, [], [], [], []⟩ : JsonDataRow).subtitles = [] ∧
      json_row_channel ⟨[], "t".toList, "v".toList, [], [], [], []⟩ =
        (DEFAULT_CHANNEL, DEFAULT_CHANNEL)) :=
  ⟨⟨rfl, (C8_music_skipped_and_hidden_default.1 (fun _ => some 0)
      ⟨[], "Visited YouTube Music".toList, [], [], [], [], []⟩ [] Models.new rfl)⟩,
    ⟨rfl, C8_music_skipped_and_hidden_default.2.1
      ⟨[], "t".toList, "v".toList, [], [], [], []⟩ rfl⟩⟩

/-- C10: a json row whose title carries the 8-character prefix "Watched "
has exactly that prefix removed before the video is stored: the stored
title is the remainder; any other title is stored unchanged. -/
theorem C10_watched_stripped :
    ("Watched ".toList.length = 8) ∧
    (∀ (r : Str) (row : JsonDataRow), row.title = "Watched ".toList ++ r →
      json_row_title row = r) ∧
    (∀ row : JsonDataRow, "Watched ".toList.isPrefixOf row.title = false →
      json_row_title row = row.title) := by
  refine ⟨by decide, ?_, ?_⟩
  · intro r row h
    have hpre : "Watched ".toList.isPrefixOf row.title = true := by
      rw [h, List.isPrefixOf_iff_prefix]
      exact List.prefix_append _ _
    simp only [json_row_title, hpre, if_true]
    rw [h]
    have h8 : ("Watched ".toList).length = 8 := by decide
    rw [← h8, List.drop_left]
  · intro row h
    simp only [json_row_title, h, Bool.false_eq_true, if_false]

theorem C10_watched_stripped_witness :
    ((⟨[], "Watched abc".toList, [], [], [], [], []⟩ : JsonDataRow).title =
        "Watched ".toList ++ "abc".toList ∧
      json_row_title ⟨[], "Watched abc".toList, [], [], [], [], []⟩ = "abc".toList) ∧
    ("Watched ".toList.isPrefixOf "abc".toList = false ∧
      json_row_title ⟨[], "abc".toList, [], [], [], [], []⟩ = "abc".toList) :=
  ⟨⟨by decide, C10_watched_stripped.2.1 "abc".toList
      ⟨[], "Watched abc".toList, [], [], [], [], []⟩ (by decide)⟩,
    ⟨by decide, C10_watched_stripped.2.2
      ⟨[], "abc".toList, [], [], [], [], []⟩ (by decide)⟩⟩

/-- C2 counterexample: the stream "aab" contains the literal "ab" as a
contiguous substring, yet `skip_to("ab")` fails with `UnterminatedInput`
(the failed partial match consumes the second letter a, which is never
reconsidered as the start of the real occurrence). -/
theorem C2_counterexample_aab :
    "aab".toList = "a".toList ++ "ab".toList ++ ([] : Str) ∧
    skip_to ScanState.new ("aab".toList.map Utf8Item.ch) "ab".toList =
      (Except.error (ParseError.unterminatedInput "ab".toList
          (some ("aa".toList, ⟨1, 1, 0⟩))),
        ⟨0, 3, 3⟩, []) :=
  ⟨rfl, rfl⟩

/-- C3 counterexample: `skip_to("abc")` over the stream "xxab" (which then
ends) fails with `UnterminatedInput` whose `closest` diagnostic is `none`,
not `Some` with the substring "ab": the partial match still in progress
when the stream ends is never folded into `closest`. -/
theorem C3_counterexample_closest_none :
    skip_to ScanState.new ("xxab".toList.map Utf8Item.ch) "abc".toList =
      (Except.error (ParseError.unterminatedInput "abc".toList none),
        ⟨0, 4, 4⟩, []) := rfl

/-- C3 amended: `skip_to("abc")` over "xxabcyyy" succeeds and leaves the
scan position immediately before the first y; over "xxab" (stream ends) it
fails with `UnterminatedInput`, but its `closest` diagnostic is `none`
rather than `Some ("ab", _)`, because only a partial match that fails on a
mismatching character is recorded in `closest`, not one still in progress
when the stream ends. -/
theorem C3_amended_skip_to_abc :
    skip_to ScanState.new ("xxabcyyy".toList.map Utf8Item.ch) "abc".toList =
      (Except.ok (), ⟨0, 5, 5⟩, "yyy".toList.map Utf8Item.ch) ∧
    skip_to ScanState.new ("xxab".toList.map Utf8Item.ch) "abc".toList =
      (Except.error (ParseError.unterminatedInput "abc".toList none),
        ⟨0, 4, 4⟩, []) :=
  ⟨rfl, rfl⟩

theorem utf8_next_loop_stuck_E0 : ∀ fuel, utf8_next_loop fuel [0xE0] [] = none := by
  intro fuel
  induction fuel with
  | zero => rfl
  | succ n ih =>
    show utf8_next_loop (n + 1) [0xE0] [] = none
    simp only [utf8_next_loop]
    exact ih

/-- C4: the code, not the claim, is wrong here. With the source permanently
ended and the single truncated multi-byte prefix 0xE0 left over (delivered
as the only chunk, or already sitting in the buffer), `str::from_utf8`
reports `error_len() == None`, the loop takes the `continue` branch, the
next read reports zero bytes again, and `Utf8Iter::next` loops forever: no
fuel bound makes it return. The claim (and the spec) say these leftover
bytes must be flushed as `InvalidBytes([0xE0])`. -/
theorem C4_trailing_prefix_loops_forever :
    (∀ fuel, utf8_next fuel [] [] [[0xE0]] = none) ∧
    (∀ fuel, utf8_next fuel [] [0xE0] [] = none) ∧
    decode_chunks [[0xE0]] = none := by
  refine ⟨?_, ?_, by decide⟩
  · intro fuel
    cases fuel with
    | zero => rfl
    | succ n =>
      show utf8_next_loop (n + 1) [] [[0xE0]] = none
      simp only [utf8_next_loop]
      exact utf8_next_loop_stuck_E0 n
  · intro fuel
    exact utf8_next_loop_stuck_E0 fuel

theorem skip_to_aux_consumed (items : List Utf8Item) :
    ∀ (s : Str) (st : ScanState) (closest : Str) (cl : Location) (found : Str)
      (fl : Location),
    ∃ consumed,
      items = consumed ++ (skip_to_aux s st items closest cl found fl).2.2 ∧
      (skip_to_aux s st items closest cl found fl).2.1 =
        List.foldl consume_char st (item_chars consumed) := by
  induction items with
  | nil =>
    intro s st closest cl found fl
    exact ⟨[], by simp [skip_to_aux, item_chars]⟩
  | cons item rest ih =>
    intro s st closest cl found fl
    cases item with
    | invalid bytes => exact ⟨[.invalid bytes], by simp [skip_to_aux, item_chars]⟩
    | ioErr m => exact ⟨[.ioErr m], by simp [skip_to_aux, item_chars]⟩
    | ch c =>
      simp only [skip_to_aux]
      cases hw : s.get? found.length with
      | none => exact ⟨[.ch c], by simp [item_chars]⟩
      | some want =>
        by_cases hwc : want = c
        · simp only [if_pos hwc]
          by_cases hfs : found ++ [c] = s
          · simp only [if_pos hfs]
            exact ⟨[.ch c], by simp [item_chars]⟩
          · simp only [if_neg hfs]
            obtain ⟨consumed, h1, h2⟩ :=
              ih s (consume_char st c) closest cl (found ++ [c])
                (if found.length = 0 then
                  Location.mk (consume_char st c).chars_read (consume_char st c).column
                    (consume_char st c).line
                 else fl)
            exact ⟨.ch c :: consumed, by rw [List.cons_append, ← h1],
              by simpa [item_chars] using h2⟩
        · simp only [if_neg hwc]
          by_cases hf : found.length > 0
          · simp only [if_pos hf]
            by_cases hcl : (found ++ [c]).length > closest.length
            · simp only [if_pos hcl]
              obtain ⟨consumed, h1, h2⟩ := ih s (consume_char st c) (found ++ [c]) fl [] fl
              exact ⟨.ch c :: consumed, by rw [List.cons_append, ← h1],
                by simpa [item_chars] using h2⟩
            · simp only [if_neg hcl]
              obtain ⟨consumed, h1, h2⟩ := ih s (consume_char st c) closest cl [] fl
              exact ⟨.ch c :: consumed, by rw [List.cons_append, ← h1],
                by simpa [item_chars] using h2⟩
          · simp only [if_neg hf]
            obtain ⟨consumed, h1, h2⟩ := ih s (consume_char st c) closest cl [] fl
            exact ⟨.ch c :: consumed, by rw [List.cons_append, ← h1],
              by simpa [item_chars] using h2⟩

theorem read_until_aux_consumed (items : List Utf8Item) :
    ∀ (s : Str) (st : ScanState) (closest : Str) (cl : Location) (found : Str)
      (fl : Location) (read : Str),
    ∃ consumed,
      items = consumed ++ (read_until_aux s st items closest cl found fl read).2.2 ∧
      (read_until_aux s st items closest cl found fl read).2.1 =
        List.foldl consume_char st (item_chars consumed) := by
  induction items with
  | nil =>
    intro s st closest cl found fl read
    exact ⟨[], by simp [read_until_aux, item_chars]⟩
  | cons item rest ih =>
    intro s st closest cl found fl read
    cases item with
    | invalid bytes => exact ⟨[.invalid bytes], by simp [read_until_aux, item_chars]⟩
    | ioErr m => exact ⟨[.ioErr m], by simp [read_until_aux, item_chars]⟩
    | ch c =>
      simp only [read_until_aux]
      cases hw : s.get? found.length with
      | none => exact ⟨[.ch c], by simp [item_chars]⟩
      | some want =>
        by_cases hwc : want = c
        · simp only [if_pos hwc]
          by_cases hfs : found ++ [c] = s
          · simp only [if_pos hfs]
            exact ⟨[.ch c], by simp [item_chars]⟩
          · simp only [if_neg hfs]
            obtain ⟨consumed, h1, h2⟩ :=
              ih s (consume_char st c) closest cl (found ++ [c])
                (if found.length = 0 then
                  Location.mk (consume_char st c).chars_read (consume_char st c).column
                    (consume_char st c).line
                 else fl) read
            exact ⟨.ch c :: consumed, by rw [List.cons_append, ← h1],
              by simpa [item_chars] using h2⟩
        · simp only [if_neg hwc]
          by_cases hf : found.length > 0
          · simp only [if_pos hf]
            by_cases hcl : (found ++ [c]).length > closest.length
            · simp only [if_pos hcl]
              obtain ⟨consumed, h1, h2⟩ :=
                ih s (consume_char st c) (found ++ [c]) fl [] fl
                  (push_collapse_whitespace read (found ++ [c]))
              exact ⟨.ch c :: consumed, by rw [List.cons_append, ← h1],
                by simpa [item_chars] using h2⟩
            · simp only [if_neg hcl]
              obtain ⟨consumed, h1, h2⟩ :=
                ih s (consume_char st c) closest cl [] fl
                  (push_collapse_whitespace read (found ++ [c]))
              exact ⟨.ch c :: consumed, by rw [List.cons_append, ← h1],
                by simpa [item_chars] using h2⟩
          · simp only [if_neg hf]
            obtain ⟨consumed, h1, h2⟩ :=
              ih s (consume_char st c) closest cl [] fl
                (push_collapse_whitespace read [c])
            exact ⟨.ch c :: consumed, by rw [List.cons_append, ← h1],
              by simpa [item_chars] using h2⟩

theorem foldl_consume_chars_read (cs : Str) :
    ∀ st : ScanState,
      (List.foldl consume_char st cs).chars_read = st.chars_read + cs.length := by
  induction cs with
  | nil => intro st; simp
  | cons c cs ih =>
    intro st
    rw [List.foldl_cons, ih]
    unfold consume_char
    by_cases h : c = '\n' <;> simp [h] <;> omega

theorem foldl_consume_line (cs : Str) :
    ∀ st : ScanState,
      (List.foldl consume_char st cs).line = st.line + cs.count '\n' := by
  induction cs with
  | nil => intro st; simp
  | cons c cs ih =>
    intro st
    rw [List.foldl_cons, ih]
    unfold consume_char
    by_cases h : c = '\n' <;> simp [h, List.count_cons] <;> omega

/-- C6: the counters advance exactly once per consumed character, for every
call of `skip_to` or `read_until` on any item stream: the stream splits
into the consumed prefix and the returned remainder, and the final counter
state is exactly the fold of the single-character update `consume_char`
(newline: line + 1 and column reset to 0; otherwise column + 1; always
chars_read + 1) over the characters of the consumed prefix — regardless of
matching, mismatching or accumulation; in particular `chars_read` grows by
the number of consumed characters and `line` by the number of consumed
newlines, and `peek` consumes nothing and changes no counter. -/
theorem C6_counters_once_per_char :
    ∀ (s : Str) (st : ScanState) (items : List Utf8Item),
      (∃ consumed,
        items = consumed ++ (skip_to st items s).2.2 ∧
        (skip_to st items s).2.1 = List.foldl consume_char st (item_chars consumed) ∧
        (skip_to st items s).2.1.chars_read =
          st.chars_read + (item_chars consumed).length ∧
        (skip_to st items s).2.1.line = st.line + (item_chars consumed).count '\n') ∧
      (∃ consumed,
        items = consumed ++ (read_until st items s).2.2 ∧
        (read_until st items s).2.1 = List.foldl consume_char st (item_chars consumed) ∧
        (read_until st items s).2.1.chars_read =
          st.chars_read + (item_chars consumed).length ∧
        (read_until st items s).2.1.line = st.line + (item_chars consumed).count '\n') ∧
      (peek st items).2.1 = st ∧ (peek st items).2.2 = items := by
  intro s st items
  simp only [skip_to, read_until]
  refine ⟨?_, ?_, rfl, rfl⟩
  · obtain ⟨consumed, h1, h2⟩ :=
      skip_to_aux_consumed items s st [] Location.default [] Location.default
    exact ⟨consumed, h1, h2,
      by rw [h2, foldl_consume_chars_read],
      by rw [h2, foldl_consume_line]⟩
  · obtain ⟨consumed, h1, h2⟩ :=
      read_until_aux_consumed items s st [] Location.default [] Location.default []
    exact ⟨consumed, h1, h2,
      by rw [h2, foldl_consume_chars_read],
      by rw [h2, foldl_consume_line]⟩

theorem skip_to_aux_matches (rem : Str) :
    ∀ (found t : Str) (st : ScanState) (closest : Str) (cl : Location) (fl : Location),
      rem ≠ [] →
      skip_to_aux (found ++ rem) st ((rem ++ t).map Utf8Item.ch) closest cl found fl =
        (Except.ok (), List.foldl consume_char st rem, t.map Utf8Item.ch) := by
  induction rem with
  | nil => intro _ _ _ _ _ _ h; exact absurd rfl h
  | cons r rem' ih =>
    intro found t st closest cl fl _
    simp only [List.map_cons, List.cons_append, skip_to_aux, List.append_eq]
    have hget : (found ++ r :: rem').get? found.length = some r := by
      rw [List.get?_append_right (Nat.le_refl _)]
      simp
    simp only [hget, if_true]
    by_cases hrem : rem' = []
    · subst hrem
      simp [List.foldl_cons]
    · have hne : ¬ found ++ [r] = found ++ r :: rem' := by
        intro h
        have h2 : ([r] : Str) = r :: rem' := List.append_cancel_left h
        exact hrem (by simpa using h2.symm)
      rw [if_neg hne]
      rw [show found ++ r :: rem' = (found ++ [r]) ++ rem' by simp]
      rw [ih (found ++ [r]) t (consume_char st r) closest cl _ hrem]
      simp [List.foldl_cons]

theorem skip_to_aux_scans (p : Str) :
    ∀ (w : Char) (s' t : Str) (st : ScanState) (closest : Str) (cl : Location)
      (fl : Location),
      (∀ c ∈ p, c ≠ w) →
      skip_to_aux (w :: s') st ((p ++ (w :: s') ++ t).map Utf8Item.ch) closest cl [] fl =
        (Except.ok (), List.foldl consume_char st (p ++ (w :: s')),
          t.map Utf8Item.ch) := by
  induction p with
  | nil =>
    intro w s' t st closest cl fl _
    have := skip_to_aux_matches (w :: s') [] t st closest cl fl (by simp)
    simpa using this
  | cons c p' ih =>
    intro w s' t st closest cl fl hp
    have hcw : c ≠ w := hp c (List.mem_cons_self c p')
    simp only [List.cons_append, List.map_cons, skip_to_aux, List.append_eq]
    have hget : (w :: s').get? ([] : Str).length = some w := rfl
    simp only [hget]
    rw [if_neg (show ¬ w = c from fun h => hcw h.symm)]
    simp only [List.length_nil, gt_iff_lt, Nat.lt_irrefl, if_false]
    rw [ih w s' t (consume_char st c) closest cl fl
      (fun x hx => hp x (List.mem_cons_of_mem c hx))]
    simp [List.foldl_cons]

theorem read_until_aux_matches (rem : Str) :
    ∀ (found t : Str) (st : ScanState) (closest : Str) (cl : Location) (fl : Location)
      (read : Str),
      rem ≠ [] →
      read_until_aux (found ++ rem) st ((rem ++ t).map Utf8Item.ch) closest cl found fl
          read =
        (Except.ok read, List.foldl consume_char st rem, t.map Utf8Item.ch) := by
  induction rem with
  | nil => intro _ _ _ _ _ _ _ h; exact absurd rfl h
  | cons r rem' ih =>
    intro found t st closest cl fl read _
    simp only [List.map_cons, List.cons_append, read_until_aux, List.append_eq]
    have hget : (found ++ r :: rem').get? found.length = some r := by
      rw [List.get?_append_right (Nat.le_refl _)]
      simp
    simp only [hget, if_true]
    by_cases hrem : rem' = []
    · subst hrem
      simp [List.foldl_cons]
    · have hne : ¬ found ++ [r] = found ++ r :: rem' := by
        intro h
        have h2 : ([r] : Str) = r :: rem' := List.append_cancel_left h
        exact hrem (by simpa using h2.symm)
      rw [if_neg hne]
      rw [show found ++ r :: rem' = (found ++ [r]) ++ rem' by simp]
      rw [ih (found ++ [r]) t (consume_char st r) closest cl _ read hrem]
      simp [List.foldl_cons]

theorem read_until_aux_scans (p : Str) :
    ∀ (w : Char) (s' t : Str) (st : ScanState) (closest : Str) (cl : Location)
      (fl : Location) (read : Str),
      (∀ c ∈ p, c ≠ w) →
      ∃ r, read_until_aux (w :: s') st ((p ++ (w :: s') ++ t).map Utf8Item.ch) closest cl
          [] fl read =
        (Except.ok r, List.foldl consume_char st (p ++ (w :: s')),
          t.map Utf8Item.ch) := by
  induction p with
  | nil =>
    intro w s' t st closest cl fl read _
    refine ⟨read, ?_⟩
    have := read_until_aux_matches (w :: s') [] t st closest cl fl read (by simp)
    simpa using this
  | cons c p' ih =>
    intro w s' t st closest cl fl read hp
    have hcw : c ≠ w := hp c (List.mem_cons_self c p')
    simp only [List.cons_append, List.map_cons, read_until_aux, List.append_eq]
    have hget : (w :: s').get? ([] : Str).length = some w := rfl
    simp only [hget]
    rw [if_neg (show ¬ w = c from fun h => hcw h.symm)]
    simp only [List.length_nil, gt_iff_lt, Nat.lt_irrefl, if_false]
    obtain ⟨r, hr⟩ := ih w s' t (consume_char st c) closest cl fl
      (push_collapse_whitespace read [c]) (fun x hx => hp x (List.mem_cons_of_mem c hx))
    refine ⟨r, ?_⟩
    rw [hr]
    simp [List.foldl_cons]

/-- C2 amended: the matcher of `skip_to` and `read_until` restarts after a
mismatch, consuming the mismatching character without reconsidering it, so
an occurrence of the literal that overlaps a failed partial match can be
missed (see the counterexample: "ab" is not found in "aab"). When the
stream contains an occurrence of the literal no earlier character of which
equals the first character of the literal — so that no failed partial
match can swallow its start — both primitives succeed and leave the scan
position immediately after that occurrence. -/
theorem C2_amended_no_overlap_success (w : Char) (s' p t : Str) (st : ScanState)
    (hp : ∀ c ∈ p, c ≠ w) :
    skip_to st ((p ++ (w :: s') ++ t).map Utf8Item.ch) (w :: s') =
      (Except.ok (), List.foldl consume_char st (p ++ (w :: s')),
        t.map Utf8Item.ch) ∧
    ∃ r, read_until st ((p ++ (w :: s') ++ t).map Utf8Item.ch) (w :: s') =
      (Except.ok r, List.foldl consume_char st (p ++ (w :: s')),
        t.map Utf8Item.ch) := by
  constructor
  · exact skip_to_aux_scans p w s' t st [] Location.default Location.default hp
  · exact read_until_aux_scans p w s' t st [] Location.default Location.default [] hp

theorem C2_amended_no_overlap_success_witness :
    (∀ c ∈ "xx".toList, c ≠ 'a') ∧
    (skip_to ScanState.new (("xx".toList ++ ('a' :: "bc".toList) ++ "yyy".toList).map
        Utf8Item.ch) ('a' :: "bc".toList) =
      (Except.ok (), List.foldl consume_char ScanState.new
        ("xx".toList ++ ('a' :: "bc".toList)), "yyy".toList.map Utf8Item.ch) ∧
    ∃ r, read_until ScanState.new (("xx".toList ++ ('a' :: "bc".toList) ++
        "yyy".toList).map Utf8Item.ch) ('a' :: "bc".toList) =
      (Except.ok r, List.foldl consume_char ScanState.new
        ("xx".toList ++ ('a' :: "bc".toList)), "yyy".toList.map Utf8Item.ch)) :=
  ⟨by decide,
    C2_amended_no_overlap_success 'a' "bc".toList "xx".toList "yyy".toList ScanState.new
      (by decide)⟩

theorem parse_loop_extract (dp : Str → Option Int) :
    ∀ (fuel : Nat) (st : ScanState) (ms : Models) (items : List Utf8Item)
      (rows : List DataRow) (st2 : ScanState),
      extract_rows dp fuel st items = (rows, Except.ok true, st2) →
      parse_loop dp fuel st ms items =
        some (Except.ok (), st2, List.foldl insert_row ms rows) := by
  intro fuel
  induction fuel with
  | zero =>
    intro st ms items rows st2 h
    have hb : (Except.ok false : Except ParseError Bool) = Except.ok true :=
      congrArg (fun x => x.2.1) h
    simp at hb
  | succ n ih =>
    intro st ms items rows st2 h
    simp only [extract_rows] at h
    simp only [parse_loop]
    rcases hnd : next_data_row dp st items with ⟨res, st1, it1⟩
    rw [hnd] at h
    try simp only [hnd]
    cases res with
    | error e => simp at h
    | ok o =>
      cases o with
      | none =>
        simp only [] at h ⊢
        simp only [Prod.mk.injEq] at h
        obtain ⟨h1, _, h3⟩ := h
        rw [← h1, ← h3]
        simp
      | some row =>
        simp only [] at h ⊢
        rcases hE : extract_rows dp n st1 it1 with ⟨rows2, r, st3⟩
        rw [hE] at h
        simp only [Prod.mk.injEq] at h
        obtain ⟨h1, h2, h3⟩ := h
        rw [h2, h3] at hE
        rw [← h1, List.foldl_cons]
        exact ih st1 (insert_row ms row) it1 rows2 st2 hE

/-- C5: if the initial `skip_to` of the anchor literal fails with
`UnterminatedInput` before any record has been extracted, `next_data_row`
reports no row and `parse` returns the `NoRows` error; once at least one
record has been extracted, the same failure is a clean end: `parse` returns
`Ok` with exactly the records found so far folded into the model. -/
theorem C5_norows_vs_clean_end (dp : Str → Option Int) (st : ScanState) (ms : Models)
    (items : List Utf8Item) :
    (∀ st1 it1, next_data_row dp st items = (Except.ok none, st1, it1) →
      parse dp st ms items = some (Except.error ParseError.noRows, st1, ms)) ∧
    (∀ row st1 it1 rows st2,
      next_data_row dp st items = (Except.ok (some row), st1, it1) →
      extract_rows dp (items.length + 1) st1 it1 = (rows, Except.ok true, st2) →
      parse dp st ms items =
        some (Except.ok (), st2, List.foldl insert_row ms (row :: rows))) := by
  constructor
  · intro st1 it1 h
    simp only [parse, h]
  · intro row st1 it1 rows st2 h hE
    simp only [parse, h]
    rw [List.foldl_cons]
    exact parse_loop_extract dp (items.length + 1) st1 (insert_row ms row) it1 rows st2 hE

theorem C5_norows_vs_clean_end_witness :
    (next_data_row (fun _ => some 0) ScanState.new
        ("Watched\u00A0<a href=\"u\">t<<br />d\nxx".toList.map Utf8Item.ch) =
      (Except.ok (some ⟨"u".toList, "t".toList, [], [], 0⟩), ⟨1, 0, 30⟩,
        "xx".toList.map Utf8Item.ch) ∧
      extract_rows (fun _ => some 0)
          (("Watched\u00A0<a href=\"u\">t<<br />d\nxx".toList.map Utf8Item.ch).length + 1)
          ⟨1, 0, 30⟩ ("xx".toList.map Utf8Item.ch) =
        ([], Except.ok true, ⟨1, 2, 32⟩)) ∧
    parse (fun _ => some 0) ScanState.new Models.new
        ("Watched\u00A0<a href=\"u\">t<<br />d\nxx".toList.map Utf8Item.ch) =
      some (Except.ok (), ⟨1, 2, 32⟩,
        List.foldl insert_row Models.new
          [⟨"u".toList, "t".toList, [], [], 0⟩]) :=
  ⟨⟨rfl, rfl⟩,
    (C5_norows_vs_clean_end (fun _ => some 0) ScanState.new Models.new
        ("Watched\u00A0<a href=\"u\">t<<br />d\nxx".toList.map Utf8Item.ch)).2
      ⟨"u".toList, "t".toList, [], [], 0⟩ ⟨1, 0, 30⟩ ("xx".toList.map Utf8Item.ch)
      [] ⟨1, 2, 32⟩ rfl rfl⟩

theorem map_has_eq_false {V : Type} (m : StrMap V) (k : Str)
    (h : ∀ p ∈ m, p.1 ≠ k) : map_has m k = false := by
  induction m with
  | nil => rfl
  | cons p rest ih =>
    simp only [map_has, Bool.or_eq_false_iff, decide_eq_false_iff_not]
    exact ⟨h p (List.mem_cons_self p rest), ih (fun q hq => h q (List.mem_cons_of_mem p hq))⟩

theorem map_insert_fresh {V : Type} (m : StrMap V) (k : Str) (v : V)
    (h : ∀ p ∈ m, p.1 ≠ k) : map_insert m k v = m ++ [(k, v)] := by
  unfold map_insert
  rw [map_has_eq_false m k h]
  simp

theorem map_get_key_consistent {V : Type} (key : V → Str) (m : StrMap V) (k : Str) (v : V)
    (hkey : ∀ p ∈ m, p.1 = key p.2) (h : map_get m k = some v) : key v = k := by
  induction m with
  | nil => simp [map_get] at h
  | cons p rest ih =>
    by_cases hp : p.1 = k
    · rw [map_get, if_pos hp] at h
      have h2 : p.2 = v := Option.some.inj h
      rw [← h2, ← hkey p (List.mem_cons_self p rest)]
      exact hp
    · rw [map_get, if_neg hp] at h
      exact ih (fun q hq => hkey q (List.mem_cons_of_mem p hq)) h

theorem map_get_isSome_iff_mem_keys {V : Type} (m : StrMap V) (k : Str) :
    (map_get m k).isSome = true ↔ k ∈ m.map Prod.fst := by
  induction m with
  | nil =>
    constructor
    · intro h; simp [map_get] at h
    · intro h; simp at h
  | cons p rest ih =>
    by_cases hp : p.1 = k
    · rw [map_get, if_pos hp]
      simp only [Option.isSome_some, List.map_cons, List.mem_cons, true_iff]
      exact Or.inl hp.symm
    · rw [map_get, if_neg hp]
      simp only [List.map_cons, List.mem_cons, ih]
      constructor
      · exact Or.inr
      · rintro (h | h)
        · exact absurd h.symm hp
        · exact h

theorem from_str_channels_eq :
    ∀ (cs : List ScalarChannel) (acc : StrMap Channel),
      (∀ c ∈ cs, ∀ p ∈ acc, p.1 ≠ c.url) →
      (cs.map ScalarChannel.url).Nodup →
      from_str_channels cs acc =
        acc ++ cs.map (fun c => (c.url, (⟨c.url, c.name⟩ : Channel))) := by
  intro cs
  induction cs with
  | nil => intro acc _ _; simp [from_str_channels]
  | cons c rest ih =>
    intro acc hfresh hnd
    simp only [from_str_channels]
    rw [map_insert_fresh acc c.url _ (hfresh c (List.mem_cons_self c rest))]
    rw [List.map_cons] at hnd
    have hcu := (List.nodup_cons.mp hnd).1
    have hnd2 := (List.nodup_cons.mp hnd).2
    have hfr : ∀ c' ∈ rest,
        ∀ p ∈ acc ++ [(c.url, (⟨c.url, c.name⟩ : Channel))], p.1 ≠ c'.url := by
      intro c' hc' p hp
      rcases List.mem_append.mp hp with hp1 | hp2
      · exact hfresh c' (List.mem_cons_of_mem c hc') p hp1
      · have hpe : p.1 = c.url := by
          have hp3 : p = (c.url, (⟨c.url, c.name⟩ : Channel)) := by simpa using hp2
          rw [hp3]
        rw [hpe]
        intro hcontra
        apply hcu
        rw [hcontra]
        exact List.mem_map_of_mem ScalarChannel.url hc'
    have hrec := ih (acc ++ [(c.url, (⟨c.url, c.name⟩ : Channel))]) hfr hnd2
    rw [hrec]
    simp

theorem from_str_videos_eq (chans : StrMap Channel)
    (hchan : ∀ p ∈ chans, p.1 = p.2.url) :
    ∀ (vs : List ScalarVideo) (acc : StrMap Video),
      (∀ v ∈ vs, (map_get chans v.channel).isSome) →
      (∀ v ∈ vs, ∀ p ∈ acc, p.1 ≠ v.url) →
      (vs.map ScalarVideo.url).Nodup →
      (∀ p ∈ acc, p.1 = p.2.url) →
      ∃ out, from_str_videos chans vs acc = some out ∧
        (∀ p ∈ out, p.1 = p.2.url) ∧
        out.map Prod.fst = acc.map Prod.fst ++ vs.map ScalarVideo.url ∧
        out.map (fun p => (p.2.url, p.2.title, p.2.channel.url)) =
          acc.map (fun p => (p.2.url, p.2.title, p.2.channel.url)) ++
            vs.map (fun v => (v.url, v.title, v.channel)) := by
  intro vs
  induction vs with
  | nil =>
    intro acc _ _ _ hacck
    exact ⟨acc, by simp [from_str_videos], hacck, by simp, by simp⟩
  | cons v rest ih =>
    intro acc hsome hfresh hnd hacck
    obtain ⟨channel, hch⟩ :=
      Option.isSome_iff_exists.mp (hsome v (List.mem_cons_self v rest))
    have hchu : channel.url = v.channel :=
      map_get_key_consistent Channel.url chans v.channel channel hchan hch
    simp only [from_str_videos, hch]
    rw [map_insert_fresh acc v.url _ (fun p hp => hfresh v (List.mem_cons_self v rest) p hp)]
    rw [List.map_cons] at hnd
    have hvu := (List.nodup_cons.mp hnd).1
    have hnd2 := (List.nodup_cons.mp hnd).2
    have hfr : ∀ v' ∈ rest,
        ∀ p ∈ acc ++ [(v.url, (⟨v.url, v.title, channel⟩ : Video))], p.1 ≠ v'.url := by
      intro v' hv' p hp
      rcases List.mem_append.mp hp with hp1 | hp2
      · exact hfresh v' (List.mem_cons_of_mem v hv') p hp1
      · have hpe : p.1 = v.url := by
          have hp3 : p = (v.url, (⟨v.url, v.title, channel⟩ : Video)) := by simpa using hp2
          rw [hp3]
        rw [hpe]
        intro hcontra
        apply hvu
        rw [hcontra]
        exact List.mem_map_of_mem ScalarVideo.url hv'
    have hacck2 : ∀ p ∈ acc ++ [(v.url, (⟨v.url, v.title, channel⟩ : Video))],
        p.1 = p.2.url := by
      intro p hp
      rcases List.mem_append.mp hp with hp1 | hp2
      · exact hacck p hp1
      · have hp3 : p = (v.url, (⟨v.url, v.title, channel⟩ : Video)) := by simpa using hp2
        rw [hp3]
    obtain ⟨out, h1, h2, h3, h4⟩ :=
      ih (acc ++ [(v.url, (⟨v.url, v.title, channel⟩ : Video))])
        (fun v' hv' => hsome v' (List.mem_cons_of_mem v hv')) hfr hnd2 hacck2
    refine ⟨out, h1, h2, ?_, ?_⟩
    · rw [h3]
      simp
    · rw [h4]
      simp [hchu]

theorem from_str_watches_eq (vids : StrMap Video)
    (hv : ∀ p ∈ vids, p.1 = p.2.url) :
    ∀ (ws : List ScalarWatched) (acc : List Watched),
      (∀ w ∈ ws, (map_get vids w.video).isSome) →
      ∃ out, from_str_watches vids ws acc = some out ∧
        out.map (fun x => (x.video.url, x.when)) =
          acc.map (fun x => (x.video.url, x.when)) ++
            ws.map (fun w => (w.video, w.when)) := by
  intro ws
  induction ws with
  | nil =>
    intro acc _
    exact ⟨acc, by simp [from_str_watches], by simp⟩
  | cons w rest ih =>
    intro acc hsome
    obtain ⟨video, hvid⟩ :=
      Option.isSome_iff_exists.mp (hsome w (List.mem_cons_self w rest))
    have hvu : video.url = w.video :=
      map_get_key_consistent Video.url vids w.video video hv hvid
    simp only [from_str_watches, hvid]
    obtain ⟨out, h1, h2⟩ :=
      ih (acc ++ [⟨video, w.when⟩]) (fun w' hw' => hsome w' (List.mem_cons_of_mem w hw'))
    refine ⟨out, h1, ?_⟩
    rw [h2]
    simp [hvu]

/-- C7: cache round-trip. For a `Models` value satisfying the
representation invariants of the two maps (keys are the stored urls,
without duplicates) and the claim's presence conditions (each video's
channel url is in the channel map, each watch's video url is in the video
map), decoding the encoded scalar form succeeds and yields the same set of
channels (url, name), the same set of videos (url, title, channel url) and
the identical watch sequence (video url, timestamp) in the same order. -/
theorem C7_cache_round_trip (ms : Models)
    (hkc : ∀ p ∈ ms.channels, p.1 = p.2.url)
    (hnc : (ms.channels.map Prod.fst).Nodup)
    (hkv : ∀ p ∈ ms.videos, p.1 = p.2.url)
    (hnv : (ms.videos.map Prod.fst).Nodup)
    (hvc : ∀ p ∈ ms.videos, (map_get ms.channels p.2.channel.url).isSome)
    (hwv : ∀ w ∈ ms.watches, (map_get ms.videos w.video.url).isSome) :
    ∃ ms', Models.from_str (Models.to_string ms) = some ms' ∧
      (∀ uc : Str × Str,
        uc ∈ ms'.channels.map (fun p => (p.2.url, p.2.name)) ↔
        uc ∈ ms.channels.map (fun p => (p.2.url, p.2.name))) ∧
      (∀ vt : Str × Str × Str,
        vt ∈ ms'.videos.map (fun p => (p.2.url, p.2.title, p.2.channel.url)) ↔
        vt ∈ ms.videos.map (fun p => (p.2.url, p.2.title, p.2.channel.url))) ∧
      ms'.watches.map (fun w => (w.video.url, w.when)) =
        ms.watches.map (fun w => (w.video.url, w.when)) := by
  have hurlc : (Models.to_string ms).channels.map ScalarChannel.url =
      ms.channels.map Prod.fst := by
    simp only [Models.to_string, List.map_map]
    exact List.map_congr_left (fun p hp => (hkc p hp).symm)
  have hchannels : from_str_channels (Models.to_string ms).channels [] = ms.channels := by
    rw [from_str_channels_eq _ [] (by simp) (hurlc ▸ hnc)]
    simp only [List.nil_append, Models.to_string, List.map_map]
    have : ∀ p ∈ ms.channels,
        ((fun c => (c.url, (⟨c.url, c.name⟩ : Channel))) ∘
          (fun p : Str × Channel => (⟨p.2.url, p.2.name⟩ : ScalarChannel))) p = p := by
      intro p hp
      show (p.2.url, (⟨p.2.url, p.2.name⟩ : Channel)) = p
      have e1 : (⟨p.2.url, p.2.name⟩ : Channel) = p.2 := rfl
      rw [e1, ← hkc p hp]
    rw [List.map_congr_left this]
    simp
  have hurlv : (Models.to_string ms).videos.map ScalarVideo.url =
      ms.videos.map Prod.fst := by
    simp only [Models.to_string, List.map_map]
    exact List.map_congr_left (fun p hp => (hkv p hp).symm)
  have hsomev : ∀ v ∈ (Models.to_string ms).videos,
      (map_get ms.channels v.channel).isSome := by
    intro v hv
    simp only [Models.to_string, List.mem_map] at hv
    obtain ⟨p, hp, hfp⟩ := hv
    rw [← hfp]
    exact hvc p hp
  obtain ⟨vout, hv1, hv2, hv3, hv4⟩ :=
    from_str_videos_eq ms.channels hkc (Models.to_string ms).videos []
      hsomev (by simp) (hurlv ▸ hnv) (by simp)
  have hsomew : ∀ w ∈ (Models.to_string ms).watches,
      (map_get vout w.video).isSome := by
    intro w hw
    simp only [Models.to_string, List.mem_map] at hw
    obtain ⟨x, hx, hfx⟩ := hw
    rw [map_get_isSome_iff_mem_keys, hv3]
    simp only [List.map_nil, List.nil_append]
    rw [hurlv, ← hfx]
    show x.video.url ∈ ms.videos.map Prod.fst
    rw [← map_get_isSome_iff_mem_keys]
    exact hwv x hx
  obtain ⟨wout, hw1, hw2⟩ :=
    from_str_watches_eq vout hv2 (Models.to_string ms).watches [] hsomew
  refine ⟨⟨wout, ms.channels, vout⟩, ?_, ?_, ?_, ?_⟩
  · simp only [Models.from_str]
    rw [hchannels, hv1]
    simp only []
    rw [hw1]
  · intro uc
    exact Iff.rfl
  · intro vt
    have : vout.map (fun p => (p.2.url, p.2.title, p.2.channel.url)) =
        ms.videos.map (fun p => (p.2.url, p.2.title, p.2.channel.url)) := by
      rw [hv4]
      simp only [List.map_nil, List.nil_append, Models.to_string, List.map_map]
      rfl
    rw [this]
  · rw [hw2]
    simp only [List.map_nil, List.nil_append, Models.to_string, List.map_map]
    rfl

theorem C7_cache_round_trip_witness :
    ((∀ p ∈ (Models.mk [⟨⟨"v".toList, "t".toList, ⟨"c".toList, "n".toList⟩⟩, 5⟩]
        [("c".toList, ⟨"c".toList, "n".toList⟩)]
        [("v".toList, ⟨"v".toList, "t".toList, ⟨"c".toList, "n".toList⟩⟩)]).channels,
        p.1 = p.2.url) ∧
      (∀ w ∈ (Models.mk [⟨⟨"v".toList, "t".toList, ⟨"c".toList, "n".toList⟩⟩, 5⟩]
        [("c".toList, ⟨"c".toList, "n".toList⟩)]
        [("v".toList, ⟨"v".toList, "t".toList, ⟨"c".toList, "n".toList⟩⟩)]).watches,
        (map_get (Models.mk [⟨⟨"v".toList, "t".toList, ⟨"c".toList, "n".toList⟩⟩, 5⟩]
          [("c".toList, ⟨"c".toList, "n".toList⟩)]
          [("v".toList, ⟨"v".toList, "t".toList, ⟨"c".toList, "n".toList⟩⟩)]).videos
          w.video.url).isSome)) ∧
    (∃ ms', Models.from_str (Models.to_string
        (Models.mk [⟨⟨"v".toList, "t".toList, ⟨"c".toList, "n".toList⟩⟩, 5⟩]
          [("c".toList, ⟨"c".toList, "n".toList⟩)]
          [("v".toList, ⟨"v".toList, "t".toList, ⟨"c".toList, "n".toList⟩⟩)])) = some ms' ∧
      (∀ uc : Str × Str,
        uc ∈ ms'.channels.map (fun p => (p.2.url, p.2.name)) ↔
        uc ∈ (Models.mk [⟨⟨"v".toList, "t".toList, ⟨"c".toList, "n".toList⟩⟩, 5⟩]
          [("c".toList, ⟨"c".toList, "n".toList⟩)]
          [("v".toList, ⟨"v".toList, "t".toList,
            ⟨"c".toList, "n".toList⟩⟩)]).channels.map (fun p => (p.2.url, p.2.name))) ∧
      (∀ vt : Str × Str × Str,
        vt ∈ ms'.videos.map (fun p => (p.2.url, p.2.title, p.2.channel.url)) ↔
        vt ∈ (Models.mk [⟨⟨"v".toList, "t".toList, ⟨"c".toList, "n".toList⟩⟩, 5⟩]
          [("c".toList, ⟨"c".toList, "n".toList⟩)]
          [("v".toList, ⟨"v".toList, "t".toList,
            ⟨"c".toList, "n".toList⟩⟩)]).videos.map
              (fun p => (p.2.url, p.2.title, p.2.channel.url))) ∧
      ms'.watches.map (fun w => (w.video.url, w.when)) =
        (Models.mk [⟨⟨"v".toList, "t".toList, ⟨"c".toList, "n".toList⟩⟩, 5⟩]
          [("c".toList, ⟨"c".toList, "n".toList⟩)]
          [("v".toList, ⟨"v".toList, "t".toList,
            ⟨"c".toList, "n".toList⟩⟩)]).watches.map (fun w => (w.video.url, w.when))) :=
  ⟨⟨by decide, by decide⟩,
    C7_cache_round_trip
      (Models.mk [⟨⟨"v".toList, "t".toList, ⟨"c".toList, "n".toList⟩⟩, 5⟩]
        [("c".toList, ⟨"c".toList, "n".toList⟩)]
        [("v".toList, ⟨"v".toList, "t".toList, ⟨"c".toList, "n".toList⟩⟩)])
      (by decide) (by decide) (by decide) (by decide) (by decide) (by decide)⟩

theorem decode_first_shape (b0 : Nat) (rest : List Nat) :
    (∃ c len, decode_first (b0 :: rest) = .ok c len ∧ 1 ≤ len ∧
      len ≤ (b0 :: rest).length) ∨
    (∃ n, decode_first (b0 :: rest) = .invalid n ∧ 1 ≤ n ∧ n ≤ (b0 :: rest).length) ∨
    decode_first (b0 :: rest) = .incomplete := by
  rcases rest with _ | ⟨b1, rest1⟩
  · simp only [decode_first]
    split_ifs <;>
      first
        | (left; exact ⟨_, _, rfl, by omega, by simp⟩)
        | (right; left; exact ⟨_, rfl, by omega, by simp⟩)
        | (right; right; rfl)
  · rcases rest1 with _ | ⟨b2, rest2⟩
    · simp only [decode_first]
      split_ifs <;>
        first
          | (left; exact ⟨_, _, rfl, by omega, by simp⟩)
          | (right; left; exact ⟨_, rfl, by omega, by simp⟩)
          | (right; right; rfl)
    · rcases rest2 with _ | ⟨b3, rest3⟩
      · simp only [decode_first]
        split_ifs <;>
          first
            | (left; exact ⟨_, _, rfl, by omega, by simp⟩)
            | (right; left; exact ⟨_, rfl, by omega, by simp⟩)
            | (right; right; rfl)
      · simp only [decode_first]
        split_ifs <;>
          first
            | (left; exact ⟨_, _, rfl, by omega, by simp⟩)
            | (right; left; exact ⟨_, rfl, by omega, by simp⟩)
            | (right; right; rfl)

theorem decode_first_append (bs ys : List Nat) :
    (∀ c len, decode_first bs = .ok c len → decode_first (bs ++ ys) = .ok c len) ∧
    (∀ n, decode_first bs = .invalid n → decode_first (bs ++ ys) = .invalid n) := by
  rcases bs with _ | ⟨b0, rest⟩
  · constructor
    · intro c len h
      simp [decode_first] at h
    · intro n h
      simp [decode_first] at h
  · rcases rest with _ | ⟨b1, rest1⟩
    · refine ⟨fun c len h => ?_, fun n h => ?_⟩ <;>
        (simp only [decode_first, List.cons_append, List.nil_append] at h ⊢;
         split_ifs at h ⊢ <;> simp_all)
    · rcases rest1 with _ | ⟨b2, rest2⟩
      · refine ⟨fun c len h => ?_, fun n h => ?_⟩ <;>
          (simp only [decode_first, List.cons_append, List.nil_append] at h ⊢;
           split_ifs at h ⊢ <;> simp_all)
      · rcases rest2 with _ | ⟨b3, rest3⟩
        · refine ⟨fun c len h => ?_, fun n h => ?_⟩ <;>
            (simp only [decode_first, List.cons_append, List.nil_append] at h ⊢;
             split_ifs at h ⊢ <;> simp_all)
        · refine ⟨fun c len h => ?_, fun n h => ?_⟩ <;>
            (simp only [decode_first, List.cons_append, List.nil_append] at h ⊢;
             split_ifs at h ⊢ <;> simp_all)

theorem utf8_validate_go_unfold (fuel : Nat) (bs : List Nat) :
    utf8_validate_go fuel bs =
      match decode_first bs with
      | .empty => ([], bs, none)
      | .incomplete => ([], bs, some none)
      | .invalid n => ([], bs, some (some n))
      | .ok c len =>
        match fuel with
        | 0 => ([], bs, some none)
        | fuel' + 1 =>
          let r := utf8_validate_go fuel' (bs.drop len)
          (c :: r.1, r.2.1, r.2.2) :=
  utf8_validate_go.eq_1 fuel bs

theorem utf8_validate_go_of_incomplete (fuel : Nat) (bs : List Nat)
    (h : decode_first bs = .incomplete) :
    utf8_validate_go fuel bs = ([], bs, some none) := by
  rw [utf8_validate_go_unfold, h]

theorem utf8_validate_go_of_invalid (fuel : Nat) (bs : List Nat) (n : Nat)
    (h : decode_first bs = .invalid n) :
    utf8_validate_go fuel bs = ([], bs, some (some n)) := by
  rw [utf8_validate_go_unfold, h]

theorem utf8_validate_go_of_empty (fuel : Nat) (bs : List Nat)
    (h : decode_first bs = .empty) :
    utf8_validate_go fuel bs = ([], bs, none) := by
  rw [utf8_validate_go_unfold, h]

theorem utf8_validate_go_of_ok (fuel : Nat) (bs : List Nat) (c : Char) (len : Nat)
    (h : decode_first bs = .ok c len) :
    utf8_validate_go (fuel + 1) bs =
      (c :: (utf8_validate_go fuel (bs.drop len)).1,
        (utf8_validate_go fuel (bs.drop len)).2.1,
        (utf8_validate_go fuel (bs.drop len)).2.2) := by
  rw [utf8_validate_go_unfold, h]

theorem utf8_validate_go_fuel : ∀ (k f1 f2 : Nat) (bs : List Nat),
    bs.length ≤ k → bs.length ≤ f1 → bs.length ≤ f2 →
    utf8_validate_go f1 bs = utf8_validate_go f2 bs := by
  intro k
  induction k with
  | zero =>
    intro f1 f2 bs hk _ _
    have hbs : bs = [] := List.length_eq_zero.mp (Nat.le_zero.mp hk)
    subst hbs
    rw [utf8_validate_go_of_empty f1 [] rfl, utf8_validate_go_of_empty f2 [] rfl]
  | succ k ih =>
    intro f1 f2 bs hk h1 h2
    rcases bs with _ | ⟨b0, rest⟩
    · rw [utf8_validate_go_of_empty f1 [] rfl, utf8_validate_go_of_empty f2 [] rfl]
    · rcases decode_first_shape b0 rest with ⟨c, len, hok, hlen1, hlen2⟩ |
        ⟨n, hinv, _, _⟩ | hinc
      · rcases f1 with _ | f1'
        · simp at h1
        rcases f2 with _ | f2'
        · simp at h2
        rw [utf8_validate_go_of_ok f1' _ c len hok, utf8_validate_go_of_ok f2' _ c len hok]
        have hrec := ih f1' f2' ((b0 :: rest).drop len)
          (by simp only [List.length_drop, List.length_cons]
              simp only [List.length_cons] at hk
              omega)
          (by simp only [List.length_drop, List.length_cons]
              simp only [List.length_cons] at h1
              omega)
          (by simp only [List.length_drop, List.length_cons]
              simp only [List.length_cons] at h2
              omega)
        rw [hrec]
      · rw [utf8_validate_go_of_invalid f1 _ n hinv, utf8_validate_go_of_invalid f2 _ n hinv]
      · rw [utf8_validate_go_of_incomplete f1 _ hinc, utf8_validate_go_of_incomplete f2 _ hinc]

theorem utf8_validate_of_incomplete (bs : List Nat) (h : decode_first bs = .incomplete) :
    utf8_validate bs = ([], bs, some none) :=
  utf8_validate_go_of_incomplete bs.length bs h

theorem utf8_validate_of_invalid (bs : List Nat) (n : Nat)
    (h : decode_first bs = .invalid n) :
    utf8_validate bs = ([], bs, some (some n)) :=
  utf8_validate_go_of_invalid bs.length bs n h

theorem utf8_validate_of_ok (bs : List Nat) (c : Char) (len : Nat)
    (h : decode_first bs = .ok c len) (hlen1 : 1 ≤ len) (hlen2 : len ≤ bs.length) :
    utf8_validate bs = (c :: (utf8_validate (bs.drop len)).1,
      (utf8_validate (bs.drop len)).2.1, (utf8_validate (bs.drop len)).2.2) := by
  rcases bs with _ | ⟨b0, rest⟩
  · simp [decode_first] at h
  unfold utf8_validate
  simp only [List.length_cons]
  rw [utf8_validate_go_of_ok rest.length _ c len h]
  have hfe : utf8_validate_go rest.length ((b0 :: rest).drop len) =
      utf8_validate_go ((b0 :: rest).drop len).length ((b0 :: rest).drop len) :=
    utf8_validate_go_fuel ((b0 :: rest).drop len).length rest.length
      ((b0 :: rest).drop len).length ((b0 :: rest).drop len) le_rfl
      (by simp only [List.length_drop, List.length_cons]
          simp only [List.length_cons] at hlen2
          omega)
      le_rfl
  rw [hfe]

theorem utf8_ref_go_unfold (fuel : Nat) (bs : List Nat) :
    utf8_ref_go fuel bs =
      match decode_first bs with
      | .empty => ([], false)
      | .incomplete => ([], true)
      | .invalid n =>
        match fuel with
        | 0 => ([], false)
        | fuel' + 1 =>
          let r := utf8_ref_go fuel' (bs.drop n)
          (.invalid (bs.take n) :: r.1, r.2)
      | .ok c len =>
        match fuel with
        | 0 => ([], false)
        | fuel' + 1 =>
          let r := utf8_ref_go fuel' (bs.drop len)
          (.ch c :: r.1, r.2) :=
  utf8_ref_go.eq_1 fuel bs

theorem utf8_ref_go_of_empty (fuel : Nat) (bs : List Nat)
    (h : decode_first bs = .empty) : utf8_ref_go fuel bs = ([], false) := by
  rw [utf8_ref_go_unfold, h]

theorem utf8_ref_go_of_incomplete (fuel : Nat) (bs : List Nat)
    (h : decode_first bs = .incomplete) : utf8_ref_go fuel bs = ([], true) := by
  rw [utf8_ref_go_unfold, h]

theorem utf8_ref_go_of_invalid (fuel : Nat) (bs : List Nat) (n : Nat)
    (h : decode_first bs = .invalid n) :
    utf8_ref_go (fuel + 1) bs =
      (.invalid (bs.take n) :: (utf8_ref_go fuel (bs.drop n)).1,
        (utf8_ref_go fuel (bs.drop n)).2) := by
  rw [utf8_ref_go_unfold, h]

theorem utf8_ref_go_of_ok (fuel : Nat) (bs : List Nat) (c : Char) (len : Nat)
    (h : decode_first bs = .ok c len) :
    utf8_ref_go (fuel + 1) bs =
      (.ch c :: (utf8_ref_go fuel (bs.drop len)).1,
        (utf8_ref_go fuel (bs.drop len)).2) := by
  rw [utf8_ref_go_unfold, h]

theorem utf8_ref_go_fuel : ∀ (k f1 f2 : Nat) (bs : List Nat),
    bs.length ≤ k → bs.length ≤ f1 → bs.length ≤ f2 →
    utf8_ref_go f1 bs = utf8_ref_go f2 bs := by
  intro k
  induction k with
  | zero =>
    intro f1 f2 bs hk _ _
    have hbs : bs = [] := List.length_eq_zero.mp (Nat.le_zero.mp hk)
    subst hbs
    rw [utf8_ref_go_of_empty f1 [] rfl, utf8_ref_go_of_empty f2 [] rfl]
  | succ k ih =>
    intro f1 f2 bs hk h1 h2
    rcases bs with _ | ⟨b0, rest⟩
    · rw [utf8_ref_go_of_empty f1 [] rfl, utf8_ref_go_of_empty f2 [] rfl]
    · rcases decode_first_shape b0 rest with ⟨c, len, hok, hlen1, hlen2⟩ |
        ⟨n, hinv, hn1, hn2⟩ | hinc
      · rcases f1 with _ | f1'
        · simp at h1
        rcases f2 with _ | f2'
        · simp at h2
        rw [utf8_ref_go_of_ok f1' _ c len hok, utf8_ref_go_of_ok f2' _ c len hok]
        have hrec := ih f1' f2' ((b0 :: rest).drop len)
          (by simp only [List.length_drop, List.length_cons]
              simp only [List.length_cons] at hk
              omega)
          (by simp only [List.length_drop, List.length_cons]
              simp only [List.length_cons] at h1
              omega)
          (by simp only [List.length_drop, List.length_cons]
              simp only [List.length_cons] at h2
              omega)
        rw [hrec]
      · rcases f1 with _ | f1'
        · simp at h1
        rcases f2 with _ | f2'
        · simp at h2
        rw [utf8_ref_go_of_invalid f1' _ n hinv, utf8_ref_go_of_invalid f2' _ n hinv]
        have hrec := ih f1' f2' ((b0 :: rest).drop n)
          (by simp only [List.length_drop, List.length_cons]
              simp only [List.length_cons] at hk
              omega)
          (by simp only [List.length_drop, List.length_cons]
              simp only [List.length_cons] at h1
              omega)
          (by simp only [List.length_drop, List.length_cons]
              simp only [List.length_cons] at h2
              omega)
        rw [hrec]
      · rw [utf8_ref_go_of_incomplete f1 _ hinc, utf8_ref_go_of_incomplete f2 _ hinc]

theorem utf8_ref_of_incomplete (bs : List Nat) (h : decode_first bs = .incomplete) :
    utf8_ref bs = ([], true) :=
  utf8_ref_go_of_incomplete bs.length bs h

theorem utf8_ref_of_invalid (bs : List Nat) (n : Nat)
    (h : decode_first bs = .invalid n) (hn1 : 1 ≤ n) (hn2 : n ≤ bs.length) :
    utf8_ref bs = (.invalid (bs.take n) :: (utf8_ref (bs.drop n)).1,
      (utf8_ref (bs.drop n)).2) := by
  rcases bs with _ | ⟨b0, rest⟩
  · simp [decode_first] at h
  unfold utf8_ref
  simp only [List.length_cons]
  rw [utf8_ref_go_of_invalid rest.length _ n h]
  have hfe : utf8_ref_go rest.length ((b0 :: rest).drop n) =
      utf8_ref_go ((b0 :: rest).drop n).length ((b0 :: rest).drop n) :=
    utf8_ref_go_fuel ((b0 :: rest).drop n).length rest.length
      ((b0 :: rest).drop n).length ((b0 :: rest).drop n) le_rfl
      (by simp only [List.length_drop, List.length_cons]
          simp only [List.length_cons] at hn2
          omega)
      le_rfl
  rw [hfe]

theorem utf8_ref_of_ok (bs : List Nat) (c : Char) (len : Nat)
    (h : decode_first bs = .ok c len) (hlen1 : 1 ≤ len) (hlen2 : len ≤ bs.length) :
    utf8_ref bs = (.ch c :: (utf8_ref (bs.drop len)).1, (utf8_ref (bs.drop len)).2) := by
  rcases bs with _ | ⟨b0, rest⟩
  · simp [decode_first] at h
  unfold utf8_ref
  simp only [List.length_cons]
  rw [utf8_ref_go_of_ok rest.length _ c len h]
  have hfe : utf8_ref_go rest.length ((b0 :: rest).drop len) =
      utf8_ref_go ((b0 :: rest).drop len).length ((b0 :: rest).drop len) :=
    utf8_ref_go_fuel ((b0 :: rest).drop len).length rest.length
      ((b0 :: rest).drop len).length ((b0 :: rest).drop len) le_rfl
      (by simp only [List.length_drop, List.length_cons]
          simp only [List.length_cons] at hlen2
          omega)
      le_rfl
  rw [hfe]

theorem utf8_validate_length : ∀ (k : Nat) (bs : List Nat), bs.length ≤ k →
    (utf8_validate bs).1.length + (utf8_validate bs).2.1.length ≤ bs.length := by
  intro k
  induction k with
  | zero =>
    intro bs hk
    have hbs : bs = [] := List.length_eq_zero.mp (Nat.le_zero.mp hk)
    subst hbs
    simp [utf8_validate, utf8_validate_go_of_empty 0 [] rfl]
  | succ k ih =>
    intro bs hk
    rcases bs with _ | ⟨b0, rest⟩
    · simp [utf8_validate, utf8_validate_go_of_empty 0 [] rfl]
    · rcases decode_first_shape b0 rest with ⟨c, len, hok, hlen1, hlen2⟩ |
        ⟨n, hinv, hn1, hn2⟩ | hinc
      · rw [utf8_validate_of_ok _ c len hok hlen1 hlen2]
        have hrec := ih ((b0 :: rest).drop len)
          (by simp only [List.length_drop, List.length_cons]
              simp only [List.length_cons] at hk
              omega)
        simp only [List.length_cons, List.length_drop] at hrec ⊢
        omega
      · rw [utf8_validate_of_invalid _ n hinv]
        simp
      · rw [utf8_validate_of_incomplete _ hinc]
        simp

theorem utf8_validate_status : ∀ (k : Nat) (bs : List Nat), bs.length ≤ k →
    ((utf8_validate bs).2.2 = none → (utf8_validate bs).2.1 = []) ∧
    ((utf8_validate bs).2.2 = some none →
      decode_first (utf8_validate bs).2.1 = .incomplete) ∧
    (∀ n, (utf8_validate bs).2.2 = some (some n) →
      decode_first (utf8_validate bs).2.1 = .invalid n) := by
  intro k
  induction k with
  | zero =>
    intro bs hk
    have hbs : bs = [] := List.length_eq_zero.mp (Nat.le_zero.mp hk)
    subst hbs
    refine ⟨fun _ => rfl, fun h => ?_, fun n h => ?_⟩ <;>
      simp [utf8_validate, utf8_validate_go_of_empty 0 [] rfl] at h
  | succ k ih =>
    intro bs hk
    rcases bs with _ | ⟨b0, rest⟩
    · refine ⟨fun _ => rfl, fun h => ?_, fun n h => ?_⟩ <;>
        simp [utf8_validate, utf8_validate_go_of_empty 0 [] rfl] at h
    · rcases decode_first_shape b0 rest with ⟨c, len, hok, hlen1, hlen2⟩ |
        ⟨n, hinv, hn1, hn2⟩ | hinc
      · rw [utf8_validate_of_ok _ c len hok hlen1 hlen2]
        exact ih ((b0 :: rest).drop len)
          (by simp only [List.length_drop, List.length_cons]
              simp only [List.length_cons] at hk
              omega)
      · rw [utf8_validate_of_invalid _ n hinv]
        refine ⟨fun h => ?_, fun h => ?_, fun m h => ?_⟩
        · simp at h
        · simp at h
        · simp only [Option.some.injEq] at h
          rw [← h]
          exact hinv
      · rw [utf8_validate_of_incomplete _ hinc]
        refine ⟨fun h => ?_, fun _ => hinc, fun m h => ?_⟩ <;> simp at h

theorem utf8_ref_decomp : ∀ (k : Nat) (bs ys : List Nat), bs.length ≤ k →
    utf8_ref (bs ++ ys) =
      ((utf8_validate bs).1.map Utf8Item.ch ++
        (utf8_ref ((utf8_validate bs).2.1 ++ ys)).1,
       (utf8_ref ((utf8_validate bs).2.1 ++ ys)).2) := by
  intro k
  induction k with
  | zero =>
    intro bs ys hk
    have hbs : bs = [] := List.length_eq_zero.mp (Nat.le_zero.mp hk)
    subst hbs
    simp [utf8_validate, utf8_validate_go_of_empty 0 [] rfl]
  | succ k ih =>
    intro bs ys hk
    rcases bs with _ | ⟨b0, rest⟩
    · simp [utf8_validate, utf8_validate_go_of_empty 0 [] rfl]
    · rcases decode_first_shape b0 rest with ⟨c, len, hok, hlen1, hlen2⟩ |
        ⟨n, hinv, hn1, hn2⟩ | hinc
      · rw [utf8_validate_of_ok _ c len hok hlen1 hlen2]
        have hoka := (decode_first_append (b0 :: rest) ys).1 c len hok
        rw [utf8_ref_of_ok ((b0 :: rest) ++ ys) c len hoka hlen1
          (le_trans hlen2 (by simp))]
        rw [List.drop_append_of_le_length hlen2]
        have hrec := ih ((b0 :: rest).drop len) ys
          (by simp only [List.length_drop, List.length_cons]
              simp only [List.length_cons] at hk
              omega)
        rw [hrec]
        simp
      · rw [utf8_validate_of_invalid _ n hinv]
        simp
      · rw [utf8_validate_of_incomplete _ hinc]
        simp

theorem decode_first_ok_bounds (bs : List Nat) (c : Char) (len : Nat)
    (h : decode_first bs = .ok c len) : 1 ≤ len ∧ len ≤ bs.length := by
  rcases bs with _ | ⟨b0, rest⟩
  · simp [decode_first] at h
  · rcases decode_first_shape b0 rest with ⟨c', len', hok, h1, h2⟩ |
      ⟨n, hinv, _, _⟩ | hinc
    · rw [h] at hok
      obtain ⟨-, hlen⟩ := DecodeFirst.ok.inj hok
      rw [hlen]
      exact ⟨h1, h2⟩
    · rw [h] at hinv
      cases hinv
    · rw [h] at hinc
      cases hinc

theorem decode_first_invalid_bounds (bs : List Nat) (n : Nat)
    (h : decode_first bs = .invalid n) : 1 ≤ n ∧ n ≤ bs.length := by
  rcases bs with _ | ⟨b0, rest⟩
  · simp [decode_first] at h
  · rcases decode_first_shape b0 rest with ⟨c', len', hok, _, _⟩ |
      ⟨n', hinv, h1, h2⟩ | hinc
    · rw [h] at hok
      cases hok
    · rw [h] at hinv
      obtain hn := DecodeFirst.invalid.inj hinv
      rw [hn]
      exact ⟨h1, h2⟩
    · rw [h] at hinc
      cases hinc

theorem utf8_validate_rem_of_nil (bs : List Nat)
    (h : (utf8_validate bs).1 = []) : (utf8_validate bs).2.1 = bs := by
  rcases bs with _ | ⟨b0, rest⟩
  · simp [utf8_validate, utf8_validate_go_of_empty 0 [] rfl]
  · rcases decode_first_shape b0 rest with ⟨c, len, hok, h1, h2⟩ |
      ⟨n, hinv, _, _⟩ | hinc
    · rw [utf8_validate_of_ok _ c len hok h1 h2] at h
      cases h
    · rw [utf8_validate_of_invalid _ n hinv]
    · rw [utf8_validate_of_incomplete _ hinc]

theorem owed_outcomes_cons (c : Char) (cs : List Char) (buf : List Nat)
    (src : List (List Nat)) :
    owed_outcomes (c :: cs) buf src =
      Option.map (fun l => Utf8Item.ch c :: l) (owed_outcomes cs buf src) := by
  unfold owed_outcomes
  split_ifs <;> simp

theorem owed_outcomes_shift (chars : List Char) (buf chunk : List Nat)
    (rest : List (List Nat)) :
    owed_outcomes chars (buf ++ chunk) rest = owed_outcomes chars buf (chunk :: rest) := by
  unfold owed_outcomes
  rw [List.flatten_cons, ← List.append_assoc]

theorem total_bytes_cons (chunk : List Nat) (rest : List (List Nat)) :
    total_bytes (chunk :: rest) = chunk.length + total_bytes rest := by
  simp [total_bytes]

theorem total_bytes_eq_length_flatten : ∀ src : List (List Nat),
    total_bytes src = src.flatten.length := by
  intro src
  induction src with
  | nil => rfl
  | cons c rest ih => simp [total_bytes_cons, ih]

theorem total_bytes_ge_length : ∀ src : List (List Nat),
    (∀ ch ∈ src, ch ≠ []) → src.length ≤ total_bytes src := by
  intro src
  induction src with
  | nil => intro _; simp [total_bytes]
  | cons c rest ih =>
    intro h
    rw [total_bytes_cons]
    have hc : c ≠ [] := h c (List.mem_cons_self c rest)
    have hc1 : 1 ≤ c.length := by
      rcases c with _ | _
      · exact absurd rfl hc
      · simp
    have := ih (fun x hx => h x (List.mem_cons_of_mem c hx))
    simp only [List.length_cons]
    omega

theorem utf8_next_loop_soft : ∀ (fuel : Nat) (buf : List Nat),
    (utf8_validate buf).1 = [] → (utf8_validate buf).2.2 = some none →
    utf8_next_loop fuel buf [] = none := by
  intro fuel
  induction fuel with
  | zero => intro _ _ _; rfl
  | succ f ih =>
    intro buf h1 h2
    have hbuf : buf ≠ [] := by
      intro hb
      subst hb
      rw [show utf8_validate [] = ([], [], none) from
        utf8_validate_go_of_empty _ [] rfl] at h2
      simp at h2
    simp only [utf8_next_loop]
    rw [if_neg (by simp [hbuf])]
    rcases hv : utf8_validate buf with ⟨cs, rem, status⟩
    rw [hv] at h1 h2
    simp only at h1 h2
    subst h1
    subst h2
    exact ih buf (by rw [hv]) (by rw [hv])

theorem owed_of_validate_char (bufv : List Nat) (src2 : List (List Nat)) (c : Char)
    (cs' : List Char) (rem : List Nat) (status : Option (Option Nat))
    (hv : utf8_validate bufv = (c :: cs', rem, status)) :
    owed_outcomes [] bufv src2 =
      Option.map (fun l => Utf8Item.ch c :: l) (owed_outcomes cs' rem src2) := by
  unfold owed_outcomes
  have hd := utf8_ref_decomp bufv.length bufv src2.flatten le_rfl
  rw [hv] at hd
  simp only at hd
  rw [hd]
  split_ifs <;> simp

theorem owed_of_invalid_step (bufv : List Nat) (src2 : List (List Nat)) (k : Nat)
    (hk : decode_first bufv = .invalid k) :
    owed_outcomes [] bufv src2 =
      Option.map (fun l => Utf8Item.invalid (bufv.take k) :: l)
        (owed_outcomes [] (bufv.drop k) src2) := by
  have h1k := decode_first_invalid_bounds bufv k hk
  have hka := (decode_first_append bufv src2.flatten).2 k hk
  unfold owed_outcomes
  rw [utf8_ref_of_invalid (bufv ++ src2.flatten) k hka h1k.1
    (le_trans h1k.2 (by simp))]
  rw [List.take_append_of_le_length h1k.2, List.drop_append_of_le_length h1k.2]
  split_ifs <;> simp

theorem utf8_next_loop_spec : ∀ (src : List (List Nat)) (buf : List Nat) (fuel : Nat),
    (∀ ch ∈ src, ch ≠ []) → src.length < fuel →
    (buf ++ src.flatten = [] ∧
      utf8_next_loop fuel buf src = some (none, [], [], [])) ∨
    (∃ item chars2 buf2 src2,
      utf8_next_loop fuel buf src = some (some item, chars2, buf2, src2) ∧
      (∀ ch ∈ src2, ch ≠ []) ∧
      src2.length ≤ src.length ∧
      chars2.length + buf2.length + total_bytes src2 + 1 ≤ buf.length + total_bytes src ∧
      owed_outcomes [] buf src =
        Option.map (fun l => item :: l) (owed_outcomes chars2 buf2 src2)) ∨
    (utf8_next_loop fuel buf src = none ∧ owed_outcomes [] buf src = none) := by
  intro src
  induction src with
  | nil =>
    intro buf fuel _ hfuel
    rcases fuel with _ | f
    · omega
    by_cases hbuf : buf = []
    · subst hbuf
      left
      exact ⟨rfl, by simp [utf8_next_loop]⟩
    · rcases hv : utf8_validate buf with ⟨cs, rem, status⟩
      rcases cs with _ | ⟨c, cs'⟩
      · have hrem : rem = buf := by
          have := utf8_validate_rem_of_nil buf (by rw [hv])
          rw [hv] at this
          exact this
        rw [hrem] at hv
        clear hrem
        rcases status with _ | st
        · exfalso
          have := (utf8_validate_status buf.length buf le_rfl).1 (by rw [hv])
          rw [hv] at this
          exact hbuf this
        rcases st with _ | k
        · right; right
          constructor
          · exact utf8_next_loop_soft (f + 1) buf (by rw [hv]) (by rw [hv])
          · have hinc : decode_first buf = .incomplete := by
              have := (utf8_validate_status buf.length buf le_rfl).2.1 (by rw [hv])
              rw [hv] at this
              exact this
            unfold owed_outcomes
            rw [if_pos]
            simp only [List.flatten_nil, List.append_nil]
            rw [utf8_ref_of_incomplete buf hinc]
        · right; left
          have hinv : decode_first buf = .invalid k := by
            have := (utf8_validate_status buf.length buf le_rfl).2.2 k (by rw [hv])
            rw [hv] at this
            exact this
          have hbounds := decode_first_invalid_bounds buf k hinv
          refine ⟨.invalid (buf.take k), [], buf.drop k, [], ?_, by simp, le_rfl, ?_, ?_⟩
          · simp only [utf8_next_loop]
            rw [if_neg (by simp [hbuf])]
            rw [hv]
          · simp only [List.length_nil, List.length_drop]
            omega
          · exact owed_of_invalid_step buf [] k hinv
      · right; left
        have hlen := utf8_validate_length buf.length buf le_rfl
        rw [hv] at hlen
        simp only [List.length_cons] at hlen
        refine ⟨.ch c, cs', rem, [], ?_, by simp, le_rfl, ?_, ?_⟩
        · simp only [utf8_next_loop]
          rw [if_neg (by simp [hbuf])]
          rw [hv]
        · omega
        · exact owed_of_validate_char buf [] c cs' rem status hv
  | cons chunk rest ih =>
    intro buf fuel hne hfuel
    rcases fuel with _ | f
    · omega
    have hchunk : chunk ≠ [] := hne chunk (List.mem_cons_self chunk rest)
    have hchl : 1 ≤ chunk.length := by
      rcases chunk with _ | _
      · exact absurd rfl hchunk
      · simp
    rcases hv : utf8_validate (buf ++ chunk) with ⟨cs, rem, status⟩
    rcases cs with _ | ⟨c, cs'⟩
    · have hrem : rem = buf ++ chunk := by
        have := utf8_validate_rem_of_nil (buf ++ chunk) (by rw [hv])
        rw [hv] at this
        exact this
      rw [hrem] at hv
      clear hrem
      rcases status with _ | st
      · exfalso
        have := (utf8_validate_status (buf ++ chunk).length (buf ++ chunk) le_rfl).1
          (by rw [hv])
        rw [hv] at this
        simp [hchunk] at this
      rcases st with _ | k
      · -- continue branch: recurse into the rest of the source
        have hstep : utf8_next_loop (f + 1) buf (chunk :: rest) =
            utf8_next_loop f (buf ++ chunk) rest := by
          simp only [utf8_next_loop]
          rw [if_neg (by intro hcon; exact absurd hcon.1 (by omega))]
          rw [hv]
        have hown : owed_outcomes [] buf (chunk :: rest) =
            owed_outcomes [] (buf ++ chunk) rest := (owed_outcomes_shift _ _ _ _).symm
        have hrest := ih (buf ++ chunk) f
          (fun x hx => hne x (List.mem_cons_of_mem chunk hx))
          (by simp only [List.length_cons] at hfuel; omega)
        rcases hrest with ⟨hflat, hres⟩ | ⟨item, chars2, buf2, src2, hres, hne2, hlen2, hbytes2, howed2⟩ | ⟨hres, howed2⟩
        · exfalso
          simp only [List.append_eq_nil] at hflat
          exact hchunk hflat.1.2
        · right; left
          refine ⟨item, chars2, buf2, src2, by rw [hstep]; exact hres, hne2, ?_, ?_, ?_⟩
          · simp only [List.length_cons]
            omega
          · rw [total_bytes_cons]
            simp only [List.length_append] at hbytes2
            omega
          · rw [hown]
            exact howed2
        · right; right
          exact ⟨by rw [hstep]; exact hres, by rw [hown]; exact howed2⟩
      · right; left
        have hinv : decode_first (buf ++ chunk) = .invalid k := by
          have := (utf8_validate_status (buf ++ chunk).length (buf ++ chunk) le_rfl).2.2 k
            (by rw [hv])
          rw [hv] at this
          exact this
        have hbounds := decode_first_invalid_bounds (buf ++ chunk) k hinv
        refine ⟨.invalid ((buf ++ chunk).take k), [], (buf ++ chunk).drop k, rest, ?_,
          fun x hx => hne x (List.mem_cons_of_mem chunk hx), by simp, ?_, ?_⟩
        · simp only [utf8_next_loop]
          rw [if_neg (by intro hcon; exact absurd hcon.1 (by omega))]
          rw [hv]
        · simp only [List.length_nil, List.length_drop, List.length_append,
            total_bytes_cons]
          simp only [List.length_append] at hbounds
          omega
        · rw [← owed_outcomes_shift]
          exact owed_of_invalid_step (buf ++ chunk) rest k hinv
    · right; left
      have hlen := utf8_validate_length (buf ++ chunk).length (buf ++ chunk) le_rfl
      rw [hv] at hlen
      simp only [List.length_cons, List.length_append] at hlen
      refine ⟨.ch c, cs', rem, rest, ?_,
        fun x hx => hne x (List.mem_cons_of_mem chunk hx), by simp, ?_, ?_⟩
      · simp only [utf8_next_loop]
        rw [if_neg (by intro hcon; exact absurd hcon.1 (by omega))]
        rw [hv]
      · rw [total_bytes_cons]
        omega
      · rw [← owed_outcomes_shift]
        exact owed_of_validate_char (buf ++ chunk) rest c cs' rem status hv

theorem run_utf8_spec : ∀ (fuel : Nat) (chars : List Char) (buf : List Nat)
    (src : List (List Nat)),
    (∀ ch ∈ src, ch ≠ []) →
    chars.length + buf.length + total_bytes src + src.length + 2 ≤ fuel →
    run_utf8 fuel chars buf src = owed_outcomes chars buf src := by
  intro fuel
  induction fuel with
  | zero =>
    intro chars buf src _ hb
    omega
  | succ f ih =>
    intro chars buf src hne hb
    rcases chars with _ | ⟨c, cs⟩
    · have hsrcf : src.length < f + 1 := by
        have := total_bytes_ge_length src hne
        simp only [List.length_nil] at hb
        omega
      have hspec := utf8_next_loop_spec src buf (f + 1) hne hsrcf
      rcases hspec with ⟨hflat, hres⟩ |
        ⟨item, chars2, buf2, src2, hres, hne2, hlen2, hbytes2, howed⟩ | ⟨hres, howed⟩
      · simp only [run_utf8, utf8_next]
        rw [hres]
        unfold owed_outcomes
        rw [hflat]
        rw [show utf8_ref [] = ([], false) from utf8_ref_go_of_empty _ [] rfl]
        simp
      · simp only [run_utf8, utf8_next]
        rw [hres]
        simp only []
        rw [ih chars2 buf2 src2 hne2 (by
          simp only [List.length_nil] at hb
          omega)]
        rw [howed]
      · simp only [run_utf8, utf8_next]
        rw [hres, howed]
    · simp only [run_utf8, utf8_next]
      rw [owed_outcomes_cons]
      rw [ih cs buf src hne (by
        simp only [List.length_cons] at hb
        omega)]

/-- C1: chunk-boundary invariance of the decoder. For every byte sequence
and every way of splitting it into successive (non-empty) read deliveries,
repeatedly calling `Utf8Iter::next` yields the same sequence of decode
outcomes — valid characters and `InvalidBytes` spans, in input order, up
to the final `End` — as when the whole sequence arrives in one read call
(`none` on both sides in the boundary case where the decoder never
terminates because the input ends in a truncated code point). -/
theorem C1_chunk_boundary_invariance (src : List (List Nat))
    (hne : ∀ ch ∈ src, ch ≠ []) :
    decode_chunks src = decode_chunks [src.flatten] := by
  have h1 : decode_chunks src = owed_outcomes [] [] src :=
    run_utf8_spec _ [] [] src hne (by simp)
  have h2 : decode_chunks [src.flatten] = owed_outcomes [] [] [src.flatten] := by
    by_cases hflat : src.flatten = []
    · rw [hflat]
      rfl
    · exact run_utf8_spec _ [] [] [src.flatten]
        (by intro ch hch
            rw [List.mem_singleton.mp hch]
            exact hflat)
        (by simp)
  rw [h1, h2]
  unfold owed_outcomes
  simp

theorem C1_chunk_boundary_invariance_witness :
    (∀ ch ∈ [[0x61, 0xC3], [0xA9], [0xF0, 0x9F], [0x98, 0x80], [0xC0], [0x62]],
      ch ≠ ([] : List Nat)) ∧
    decode_chunks [[0x61, 0xC3], [0xA9], [0xF0, 0x9F], [0x98, 0x80], [0xC0], [0x62]] =
      decode_chunks
        [[[0x61, 0xC3], [0xA9], [0xF0, 0x9F], [0x98, 0x80], [0xC0], [0x62]].flatten] :=
  ⟨by decide,
    C1_chunk_boundary_invariance
      [[0x61, 0xC3], [0xA9], [0xF0, 0x9F], [0x98, 0x80], [0xC0], [0x62]] (by decide)⟩
